import Mathlib

/-!
Verification of the release-startup action core (versioning, version ordering,
fork-provenance analysis, branch guards, run-idempotency guard).

The definitions below are a shallow embedding of the TypeScript sources.  The
most complete variant of the code base is followed (the variant that contains
the options-based assertOpenPRs and the stage-aware ensureFreshWorkflowRun);
the versioning, simplifyVersion, compareVersions, chooseBestBase and
assertCorrectHotfixBranch functions are identical across the variants.

Modelling conventions:
- JS strings are Lean String / List Char; JS array mutation (pop, reverse) is
  made explicit with popBack; JS undefined is Option.none.
- JS numbers on the versioning paths are non-negative integers or NaN and are
  modelled as Option Nat (none = NaN) or, for distances, Option Nat (none =
  Infinity).  The sort-key pipeline of simplifyVersion / compareVersions uses
  the richer JNumN and JsNumR types (finite value, Infinity, NaN) with the
  full ToNumber coercion (Infinity, exponent and radix-marked forms); finite
  values are carried exactly where JS rounds them to a double, which
  preserves sign, order and, away from the overflow threshold, finiteness.
- The regexes of the source are modelled by hand-rolled deterministic matchers
  over List Char; each matcher documents the regex it encodes.
- git queries, the GitHub API, run summaries and artifact uploads are external
  collaborators: their answers (fork distances, branch tips, fork points, PR
  lists, artifact lists) are inputs of the modelled functions, and the model
  records which summary writes / errors happen.
-/

/-! ### Decimal digits and JS number rendering -/

/-- The decimal digit character for a value below ten (JS Number.toString digit). -/
def digitChar (n : Nat) : Char :=
  if n = 0 then '0' else if n = 1 then '1' else if n = 2 then '2'
  else if n = 3 then '3' else if n = 4 then '4' else if n = 5 then '5'
  else if n = 6 then '6' else if n = 7 then '7' else if n = 8 then '8' else '9'

/-- Decimal rendering of a natural number, most significant digit first
(the JS template rendering of a non-negative integer).  The fuel argument
only bounds the recursion depth; any fuel at least n gives the digits of n. -/
def natReprGo : Nat → Nat → List Char → List Char
  | 0, n, acc => digitChar n :: acc
  | fuel + 1, n, acc =>
    if n < 10 then digitChar n :: acc
    else natReprGo fuel (n / 10) (digitChar (n % 10) :: acc)

def natRepr (n : Nat) : List Char := natReprGo n n []

/-- Numeric value of a list of decimal digit characters (the exact value JS
unary plus gives a plain digit string). -/
def digitsVal (l : List Char) : Nat :=
  l.foldl (fun a c => a * 10 + (c.toNat - 48)) 0

theorem digitChar_isDigit (n : Nat) : (digitChar n).isDigit = true := by
  unfold digitChar
  split_ifs <;> rfl

theorem digitChar_toNat (n : Nat) (h : n < 10) : (digitChar n).toNat = 48 + n := by
  interval_cases n <;> rfl

theorem natReprGo_fuel : ∀ (f1 f2 n : Nat) (acc : List Char), n ≤ f1 → n ≤ f2 →
    natReprGo f1 n acc = natReprGo f2 n acc := by
  intro f1
  induction f1 with
  | zero =>
    intro f2 n acc h1 _
    have : n = 0 := Nat.le_zero.mp h1
    subst this
    cases f2 <;> rfl
  | succ f1 ih =>
    intro f2 n acc h1 h2
    by_cases h : n < 10
    · cases f2 with
      | zero =>
        have : n = 0 := Nat.le_zero.mp h2
        subst this
        rfl
      | succ f2 => simp [natReprGo, h]
    · cases f2 with
      | zero => omega
      | succ f2 =>
        rw [natReprGo, natReprGo]
        simp only [h, if_false]
        exact ih f2 (n / 10) _ (by omega) (by omega)

theorem natReprGo_append (fuel : Nat) : ∀ (n : Nat) (acc : List Char),
    natReprGo fuel n acc = natReprGo fuel n [] ++ acc := by
  induction fuel with
  | zero => intro n acc; rfl
  | succ fuel ih =>
    intro n acc
    by_cases h : n < 10
    · simp [natReprGo, h]
    · rw [natReprGo, natReprGo]
      simp only [h, if_false]
      rw [ih (n / 10) (digitChar (n % 10) :: acc), ih (n / 10) [digitChar (n % 10)]]
      simp

theorem natRepr_eq (n : Nat) :
    natRepr n = if n < 10 then [digitChar n]
      else natRepr (n / 10) ++ [digitChar (n % 10)] := by
  by_cases h : n < 10
  · cases hn : n with
    | zero => simp [natRepr, natReprGo, h, hn]
    | succ m =>
      rw [natRepr, natReprGo]
      rw [hn] at h
      simp [h]
  · have h1 : n ≠ 0 := by omega
    rcases Nat.exists_eq_succ_of_ne_zero h1 with ⟨m, hm⟩
    rw [natRepr]
    conv_lhs => rw [hm]
    rw [natReprGo]
    rw [← hm]
    simp only [h, if_false]
    rw [natReprGo_append]
    rw [natRepr]
    rw [natReprGo_fuel m (n / 10) (n / 10) [] (by omega) (by omega)]

theorem natRepr_digits (n : Nat) : ∀ c ∈ natRepr n, c.isDigit = true := by
  induction n using Nat.strong_induction_on with
  | _ n ih =>
    intro c hc
    rw [natRepr_eq] at hc
    by_cases h : n < 10
    · simp [h] at hc
      subst hc; exact digitChar_isDigit n
    · simp [h] at hc
      rcases hc with hc | hc
      · exact ih (n / 10) (Nat.div_lt_self (by omega) (by omega)) c hc
      · subst hc; exact digitChar_isDigit (n % 10)

theorem natRepr_ne_nil (n : Nat) : natRepr n ≠ [] := by
  rw [natRepr_eq]
  by_cases h : n < 10 <;> simp [h]

theorem digitsVal_append_singleton (l : List Char) (c : Char) :
    digitsVal (l ++ [c]) = digitsVal l * 10 + (c.toNat - 48) := by
  simp [digitsVal, List.foldl_append]

theorem digitsVal_natRepr (n : Nat) : digitsVal (natRepr n) = n := by
  induction n using Nat.strong_induction_on with
  | _ n ih =>
    rw [natRepr_eq]
    by_cases h : n < 10
    · simp [h, digitsVal, digitChar_toNat n h]
    · simp only [h, if_false]
      rw [digitsVal_append_singleton]
      rw [ih (n / 10) (Nat.div_lt_self (by omega) (by omega))]
      rw [digitChar_toNat (n % 10) (by omega)]
      omega

theorem natRepr_injective {m n : Nat} (h : natRepr m = natRepr n) : m = n := by
  have := digitsVal_natRepr m
  rw [h, digitsVal_natRepr] at this
  omega

theorem isDigit_ne (c d : Char) (hc : c.isDigit = true) (hd : d.isDigit = false) : c ≠ d := by
  intro h; rw [h, hd] at hc; exact Bool.false_ne_true hc

theorem natRepr_not_mem (n : Nat) (d : Char) (hd : d.isDigit = false) :
    d ∉ natRepr n := by
  intro h
  exact isDigit_ne d d (natRepr_digits n d h) hd rfl

/-! ### JS string helpers: split, join, pop, Set-dedup, numeric coercion -/

/-- JS String.prototype.split with a one-character separator. -/
def jsSplitChar (sep : Char) : List Char → List (List Char)
  | [] => [[]]
  | c :: rest =>
    if c = sep then [] :: jsSplitChar sep rest
    else
      match jsSplitChar sep rest with
      | [] => [[c]]
      | p :: ps => (c :: p) :: ps

theorem jsSplitChar_ne_nil (sep : Char) (l : List Char) : jsSplitChar sep l ≠ [] := by
  induction l with
  | nil => simp [jsSplitChar]
  | cons c rest ih =>
    rw [jsSplitChar]
    by_cases h : c = sep
    · simp [h]
    · simp only [h, if_false]
      cases hs : jsSplitChar sep rest <;> simp

theorem jsSplitChar_not_mem (sep : Char) (l : List Char) (h : sep ∉ l) :
    jsSplitChar sep l = [l] := by
  induction l with
  | nil => rfl
  | cons c rest ih =>
    rw [jsSplitChar]
    have hc : ¬ c = sep := fun he => h (he ▸ List.mem_cons_self c rest)
    simp only [hc, if_false]
    rw [ih (fun hm => h (List.mem_cons_of_mem c hm))]

theorem jsSplitChar_append (sep : Char) (a b : List Char) (h : sep ∉ a) :
    jsSplitChar sep (a ++ sep :: b) = a :: jsSplitChar sep b := by
  induction a with
  | nil => simp [jsSplitChar]
  | cons c rest ih =>
    have hc : ¬ c = sep := fun he => h (he ▸ List.mem_cons_self c rest)
    rw [List.cons_append, jsSplitChar]
    simp only [hc, if_false]
    rw [ih (fun hm => h (List.mem_cons_of_mem c hm))]

/-- Does sep occur as a prefix; if so return the remainder after it. -/
def stripPrefixSub : List Char → List Char → Option (List Char)
  | [], l => some l
  | _ :: _, [] => none
  | s :: srest, c :: rest => if c = s then stripPrefixSub srest rest else none

theorem stripPrefixSub_length (srest : List Char) :
    ∀ rest rem : List Char, stripPrefixSub srest rest = some rem →
      rem.length ≤ rest.length := by
  induction srest with
  | nil =>
    intro rest rem h
    simp [stripPrefixSub] at h
    simp [h]
  | cons s srest ih =>
    intro rest rem h
    cases rest with
    | nil => simp [stripPrefixSub] at h
    | cons c rest' =>
      rw [stripPrefixSub] at h
      by_cases hcs : c = s
      · simp only [hcs, if_true] at h
        have := ih rest' rem h
        simp
        omega
      · simp [hcs] at h

/-- JS String.prototype.split with a non-empty multi-character separator
(s0 :: srest): split on the leftmost, non-overlapping occurrences.  The fuel
argument only bounds the recursion depth; any fuel at least the length of the
input gives the split. -/
def jsSplitSubGo (s0 : Char) (srest : List Char) : Nat → List Char → List (List Char)
  | _, [] => [[]]
  | 0, l => [l]
  | fuel + 1, c :: rest =>
    if c = s0 ∧ (stripPrefixSub srest rest).isSome then
      [] :: jsSplitSubGo s0 srest fuel ((stripPrefixSub srest rest).getD [])
    else
      match jsSplitSubGo s0 srest fuel rest with
      | [] => [[c]]
      | p :: ps => (c :: p) :: ps

def jsSplitSub (s0 : Char) (srest : List Char) (l : List Char) : List (List Char) :=
  jsSplitSubGo s0 srest l.length l

theorem jsSplitSubGo_fuel (s0 : Char) (srest : List Char) :
    ∀ (f1 f2 : Nat) (l : List Char), l.length ≤ f1 → l.length ≤ f2 →
      jsSplitSubGo s0 srest f1 l = jsSplitSubGo s0 srest f2 l := by
  intro f1
  induction f1 with
  | zero =>
    intro f2 l h1 _
    have : l = [] := List.length_eq_zero.mp (Nat.le_zero.mp h1)
    subst this
    cases f2 <;> rfl
  | succ f1 ih =>
    intro f2 l h1 h2
    cases l with
    | nil => cases f2 <;> rfl
    | cons c rest =>
      cases f2 with
      | zero => simp at h2
      | succ f2 =>
        rw [jsSplitSubGo, jsSplitSubGo]
        simp only [List.length_cons] at h1 h2
        by_cases h : c = s0 ∧ (stripPrefixSub srest rest).isSome
        · rw [if_pos h, if_pos h]
          rcases h with ⟨_, hsome⟩
          cases hs : stripPrefixSub srest rest with
          | none => rw [hs] at hsome; simp at hsome
          | some rem =>
            have := stripPrefixSub_length srest rest rem hs
            simp only [Option.getD_some]
            rw [ih f2 rem (by omega) (by omega)]
        · rw [if_neg h, if_neg h]
          rw [ih f2 rest (by omega) (by omega)]

def joinWith (sep : List Char) : List (List Char) → List Char
  | [] => []
  | [p] => p
  | p :: ps => p ++ sep ++ joinWith sep ps

/-- JS Array.prototype.pop: the last element (none when empty) and the
remaining array. -/
def popBack {α : Type} : List α → Option α × List α
  | [] => (none, [])
  | [a] => (some a, [])
  | a :: rest =>
    let r := popBack rest
    (r.1, a :: r.2)

/-- Array.from(new Set(l)): deduplication keeping first occurrences, with an
accumulator of the values already emitted. -/
def jsDedupAux {α : Type} [DecidableEq α] (seen : List α) : List α → List α
  | [] => []
  | x :: rest =>
    if x ∈ seen then jsDedupAux seen rest else x :: jsDedupAux (x :: seen) rest

def jsDedup {α : Type} [DecidableEq α] (l : List α) : List α := jsDedupAux [] l

/-- JS unary plus / Number(s) as used on the versioning paths, restricted to
the shapes the statements settled about those paths depend on: the empty
string coerces to 0, a plain decimal digit string to its value, and
everything else to NaN (none).  Full ToNumber also accepts Infinity,
exponent and radix-marked forms; those are modelled by jsWordNum and
jsKeyNum below for the simplifyVersion sort key, where they matter.  The
versioning statements proved here either quantify over digit-run inputs or
do not depend on the coerced value. -/
def jsStrToNum (l : List Char) : Option Nat :=
  if l = [] then some 0
  else if l.all Char.isDigit then some (digitsVal l) else none

/-- NaN-propagating successor: JS x + 1. -/
def jsAdd1 : Option Nat → Option Nat
  | none => none
  | some n => some (n + 1)

/-- JS template rendering of a number that is a non-negative integer or NaN. -/
def jsNumToStr : Option Nat → List Char
  | none => ['N', 'a', 'N']
  | some n => natRepr n

/-- JS template rendering of a possibly-undefined string. -/
def renderOpt (o : Option (List Char)) : List Char :=
  o.getD ("undefined".toList)

/-- Maximal run of decimal digits at the front, and the rest. -/
def takeDigits : List Char → List Char × List Char
  | [] => ([], [])
  | c :: rest =>
    if c.isDigit then
      let r := takeDigits rest
      (c :: r.1, r.2)
    else ([], c :: rest)

theorem takeDigits_spec (a b : List Char) (ha : ∀ c ∈ a, c.isDigit = true)
    (hb : b = [] ∨ ∃ c rest, b = c :: rest ∧ c.isDigit = false) :
    takeDigits (a ++ b) = (a, b) := by
  induction a with
  | nil =>
    rcases hb with hb | ⟨c, rest, hb, hc⟩
    · simp [hb, takeDigits]
    · simp [hb, takeDigits, hc]
  | cons c rest ih =>
    have hc : c.isDigit = true := ha c (List.mem_cons_self c rest)
    rw [List.cons_append, takeDigits]
    simp only [hc, if_true]
    rw [ih (fun d hd => ha d (List.mem_cons_of_mem c hd))]

theorem stripPrefixSub_self (srest l : List Char) :
    stripPrefixSub srest (srest ++ l) = some l := by
  induction srest with
  | nil => rfl
  | cons s srest ih => simp [stripPrefixSub, ih]

theorem jsSplitSub_ne_nil (s0 : Char) (srest : List Char) (l : List Char) :
    jsSplitSub s0 srest l ≠ [] := by
  cases l with
  | nil => simp [jsSplitSub, jsSplitSubGo]
  | cons c rest =>
    rw [jsSplitSub, List.length_cons, jsSplitSubGo]
    split
    · simp
    · split <;> simp

theorem jsSplitSub_eq (s0 : Char) (srest : List Char) (c : Char) (rest : List Char) :
    jsSplitSub s0 srest (c :: rest) =
      if c = s0 ∧ (stripPrefixSub srest rest).isSome then
        [] :: jsSplitSub s0 srest ((stripPrefixSub srest rest).getD [])
      else
        match jsSplitSub s0 srest rest with
        | [] => [[c]]
        | p :: ps => (c :: p) :: ps := by
  rw [jsSplitSub, List.length_cons, jsSplitSubGo]
  by_cases h : c = s0 ∧ (stripPrefixSub srest rest).isSome
  · rw [if_pos h, if_pos h]
    rcases h with ⟨_, hsome⟩
    cases hs : stripPrefixSub srest rest with
    | none => rw [hs] at hsome; simp at hsome
    | some rem =>
      have := stripPrefixSub_length srest rest rem hs
      simp only [Option.getD_some]
      rw [jsSplitSub]
      rw [jsSplitSubGo_fuel s0 srest rest.length rem.length rem (by omega) (by omega)]
  · rw [if_neg h, if_neg h]
    rw [jsSplitSub]

theorem jsSplitSub_append (s0 : Char) (srest : List Char) (a b : List Char)
    (ha : ∀ c ∈ a, ¬ c = s0) :
    jsSplitSub s0 srest (a ++ (s0 :: srest) ++ b) = a :: jsSplitSub s0 srest b := by
  induction a with
  | nil =>
    simp only [List.nil_append, List.cons_append]
    rw [jsSplitSub_eq]
    rw [stripPrefixSub_self]
    simp
  | cons c rest ih =>
    have hc : ¬ c = s0 := ha c (List.mem_cons_self c rest)
    rw [List.cons_append, List.cons_append, jsSplitSub_eq]
    have hcond : ¬ (c = s0 ∧ (stripPrefixSub srest (rest ++ (s0 :: srest) ++ b)).isSome) := by
      intro hand
      exact hc hand.1
    simp only [List.cons_append] at hcond ⊢
    rw [if_neg hcond]
    rw [ih (fun d hd => ha d (List.mem_cons_of_mem c hd))]

theorem mem_jsDedupAux {α : Type} [DecidableEq α] (a : α) :
    ∀ (l seen : List α), a ∈ jsDedupAux seen l ↔ (a ∈ l ∧ a ∉ seen) := by
  intro l
  induction l with
  | nil => intro seen; simp [jsDedupAux]
  | cons x rest ih =>
    intro seen
    rw [jsDedupAux]
    by_cases hx : x ∈ seen
    · rw [if_pos hx, ih seen]
      constructor
      · intro ⟨h1, h2⟩
        exact ⟨List.mem_cons_of_mem x h1, h2⟩
      · intro ⟨h1, h2⟩
        rcases List.mem_cons.mp h1 with h1 | h1
        · exact absurd (h1 ▸ hx) h2
        · exact ⟨h1, h2⟩
    · rw [if_neg hx]
      constructor
      · intro h
        rcases List.mem_cons.mp h with h | h
        · exact ⟨h ▸ List.mem_cons_self x rest, h ▸ hx⟩
        · have := (ih (x :: seen)).mp h
          exact ⟨List.mem_cons_of_mem x this.1,
            fun hs => this.2 (List.mem_cons_of_mem x hs)⟩
      · intro ⟨h1, h2⟩
        rcases List.mem_cons.mp h1 with h1 | h1
        · exact h1 ▸ List.mem_cons_self x _
        · by_cases hax : a = x
          · exact hax ▸ List.mem_cons_self x _
          · exact List.mem_cons_of_mem x ((ih (x :: seen)).mpr
              ⟨h1, fun hs => by
                rcases List.mem_cons.mp hs with hs | hs
                · exact hax hs
                · exact h2 hs⟩)

theorem mem_jsDedup {α : Type} [DecidableEq α] (l : List α) (a : α) :
    a ∈ jsDedup l ↔ a ∈ l := by
  rw [jsDedup, mem_jsDedupAux]
  simp

/-! ### Fork-provenance analysis: chooseBestBase -/

/-- The displacement test of the chooseBestBase scan:
(bestDist is Infinity and d is finite) or (both finite and d < bestDist).
A distance is Option Nat with none = Infinity. -/
def betterDist (best d : Option Nat) : Bool :=
  match best, d with
  | none, some _ => true
  | some b, some dd => decide (dd < b)
  | _, none => false

/-- The left-to-right scan of chooseBestBase, carrying the provisional best. -/
def chooseBestBaseAux {α : Type} (distances : α → Option Nat) : α → List α → α
  | best, [] => best
  | best, b :: rest =>
    if betterDist (distances best) (distances b) then chooseBestBaseAux distances b rest
    else chooseBestBaseAux distances best rest

/-- chooseBestBase(distances, preferenceOrder): the candidate base the head is
closest to, ties favouring the earlier entry of the preference order.
(none only for an empty preference order, which the source never passes.) -/
def chooseBestBase {α : Type} (distances : α → Option Nat) : List α → Option α
  | [] => none
  | b :: rest => some (chooseBestBaseAux distances b rest)

theorem betterDist_irrefl (x : Option Nat) : betterDist x x = false := by
  cases x <;> simp [betterDist]

theorem betterDist_trans_false {a b c : Option Nat}
    (hac : betterDist a c = false) (hab : betterDist a b = true) :
    betterDist b c = false := by
  cases a <;> cases b <;> cases c <;> simp_all [betterDist] <;> omega

theorem chooseBestBaseAux_filter {α : Type} [DecidableEq α]
    (d : α → Option Nat) (x : α) :
    ∀ (l : List α) (best : α), betterDist (d best) (d x) = false →
      chooseBestBaseAux d best (l.filter (fun y => decide (y ≠ x))) =
        chooseBestBaseAux d best l := by
  intro l
  induction l with
  | nil => intro best _; rfl
  | cons y rest ih =>
    intro best hbx
    by_cases hyx : y = x
    · have hdx : (decide (y ≠ x)) = false := by simp [hyx]
      rw [List.filter_cons, hdx]
      simp only [Bool.false_eq_true, if_false]
      rw [chooseBestBaseAux]
      have hby : betterDist (d best) (d y) = false := by rw [hyx]; exact hbx
      simp only [hby, Bool.false_eq_true, if_false]
      exact ih best hbx
    · simp only [List.filter_cons]
      have : (decide (y ≠ x)) = true := by simpa using hyx
      rw [this]
      simp only [if_true]
      rw [chooseBestBaseAux, chooseBestBaseAux]
      by_cases hby : betterDist (d best) (d y) = true
      · simp only [hby, if_true]
        exact ih y (betterDist_trans_false hbx hby)
      · have hby' : betterDist (d best) (d y) = false := by
          cases hb : betterDist (d best) (d y)
          · rfl
          · exact absurd hb hby
        simp only [hby', Bool.false_eq_true, if_false]
        exact ih best hbx

theorem chooseBestBaseAux_jsDedupAux {α : Type} [DecidableEq α] (d : α → Option Nat) :
    ∀ (l seen : List α) (best : α),
      (∀ x ∈ seen, betterDist (d best) (d x) = false) →
      chooseBestBaseAux d best (jsDedupAux seen l) = chooseBestBaseAux d best l := by
  intro l
  induction l with
  | nil => intro seen best _; rfl
  | cons x rest ih =>
    intro seen best hseen
    rw [jsDedupAux]
    by_cases hx : x ∈ seen
    · rw [if_pos hx]
      have hbx : betterDist (d best) (d x) = false := hseen x hx
      rw [ih seen best hseen]
      conv_rhs => rw [chooseBestBaseAux]
      simp only [hbx, Bool.false_eq_true, if_false]
    · rw [if_neg hx]
      rw [chooseBestBaseAux]
      conv_rhs => rw [chooseBestBaseAux]
      by_cases hb : betterDist (d best) (d x) = true
      · rw [if_pos hb, if_pos hb]
        apply ih
        intro y hy
        rcases List.mem_cons.mp hy with hy | hy
        · rw [hy]
          exact betterDist_irrefl (d x)
        · exact betterDist_trans_false (hseen y hy) hb
      · have hb' : betterDist (d best) (d x) = false := by
          cases hbb : betterDist (d best) (d x)
          · rfl
          · exact absurd hbb hb
        rw [if_neg hb, if_neg hb]
        apply ih
        intro y hy
        rcases List.mem_cons.mp hy with hy | hy
        · rw [hy]
          exact hb'
        · exact hseen y hy

theorem chooseBestBaseAux_jsDedup {α : Type} [DecidableEq α] (d : α → Option Nat)
    (l : List α) (best : α) :
    chooseBestBaseAux d best (jsDedup l) = chooseBestBaseAux d best l := by
  rw [jsDedup]
  exact chooseBestBaseAux_jsDedupAux d l [] best (by intro x hx; simp at hx)

theorem chooseBestBaseAux_congr {α : Type} (d1 d2 : α → Option Nat) :
    ∀ (l : List α) (best : α), (∀ y ∈ best :: l, d1 y = d2 y) →
      chooseBestBaseAux d1 best l = chooseBestBaseAux d2 best l := by
  intro l
  induction l with
  | nil => intro best _; rfl
  | cons b rest ih =>
    intro best h
    have hbest : d1 best = d2 best := h best (List.mem_cons_self _ _)
    have hb : d1 b = d2 b := h b (List.mem_cons_of_mem _ (List.mem_cons_self _ _))
    rw [chooseBestBaseAux, chooseBestBaseAux, hbest, hb]
    by_cases hc : betterDist (d2 best) (d2 b) = true
    · simp only [hc, if_true]
      apply ih
      intro y hy
      rcases List.mem_cons.mp hy with hy | hy
      · exact hy ▸ hb
      · exact h y (List.mem_cons_of_mem _ (List.mem_cons_of_mem _ hy))
    · simp only [Bool.not_eq_true] at hc
      simp only [hc, Bool.false_eq_true, if_false]
      apply ih
      intro y hy
      rcases List.mem_cons.mp hy with hy | hy
      · exact hy ▸ hbest
      · exact h y (List.mem_cons_of_mem _ (List.mem_cons_of_mem _ hy))

theorem chooseBestBaseAux_mem {α : Type} (d : α → Option Nat) :
    ∀ (l : List α) (best : α), chooseBestBaseAux d best l ∈ best :: l := by
  intro l
  induction l with
  | nil => intro best; simp [chooseBestBaseAux]
  | cons b rest ih =>
    intro best
    rw [chooseBestBaseAux]
    by_cases hc : betterDist (d best) (d b) = true
    · simp only [hc, if_true]
      have := ih b
      rcases List.mem_cons.mp this with h | h
      · rw [h]; simp
      · simp [List.mem_cons_of_mem, h]
    · simp only [Bool.not_eq_true] at hc
      simp only [hc, Bool.false_eq_true, if_false]
      have := ih best
      rcases List.mem_cons.mp this with h | h
      · rw [h]; simp
      · simp [List.mem_cons_of_mem, h]

theorem chooseBestBaseAux_finite {α : Type} (d : α → Option Nat) :
    ∀ (l : List α) (best : α), d best ≠ none →
      d (chooseBestBaseAux d best l) ≠ none := by
  intro l
  induction l with
  | nil => intro best h; exact h
  | cons b rest ih =>
    intro best h
    rw [chooseBestBaseAux]
    by_cases hc : betterDist (d best) (d b) = true
    · simp only [hc, if_true]
      apply ih
      cases hdb : d b with
      | none =>
        cases hdbest : d best <;> rw [hdbest, hdb] at hc <;> simp [betterDist] at hc
      | some _ => simp
    · simp only [Bool.not_eq_true] at hc
      simp only [hc, Bool.false_eq_true, if_false]
      exact ih best h

theorem chooseBestBaseAux_finds_finite {α : Type} (d : α → Option Nat) :
    ∀ (l : List α) (best : α), d best = none → (∃ b ∈ l, d b ≠ none) →
      d (chooseBestBaseAux d best l) ≠ none := by
  intro l
  induction l with
  | nil =>
    intro best _ h
    rcases h with ⟨b, hb, _⟩
    exact absurd hb (List.not_mem_nil b)
  | cons b rest ih =>
    intro best hbest h
    rw [chooseBestBaseAux]
    cases hdb : d b with
    | some m =>
      have hc : betterDist (d best) (d b) = true := by
        rw [hbest, hdb]; rfl
      rw [hdb] at hc
      rw [if_pos hc]
      apply chooseBestBaseAux_finite
      rw [hdb]; simp
    | none =>
      have hc : betterDist (d best) (d b) = false := by
        rw [hbest, hdb]; rfl
      rw [hdb] at hc
      rw [if_neg (fun hcc => Bool.false_ne_true (hc ▸ hcc))]
      apply ih best hbest
      rcases h with ⟨x, hx, hxf⟩
      rcases List.mem_cons.mp hx with hx | hx
      · exact absurd (hx ▸ hxf) (by rw [hdb]; simp)
      · exact ⟨x, hx, hxf⟩

/-! ### versioning -/

/-- Matcher for the tail -beta\.(\d{1,4})(?:\.(\d{1,4}))?$ of the beta-hotfix
regex: the iteration capture and the optional fix capture. -/
def parseBetaTail (s : List Char) : Option (List Char × Option (List Char)) :=
  match s with
  | '-' :: 'b' :: 'e' :: 't' :: 'a' :: '.' :: rest =>
    let p := takeDigits rest
    if 1 ≤ p.1.length ∧ p.1.length ≤ 4 then
      match p.2 with
      | [] => some (p.1, none)
      | '.' :: rest2 =>
        let q := takeDigits rest2
        if (1 ≤ q.1.length ∧ q.1.length ≤ 4) ∧ q.2 = [] then some (p.1, some q.1)
        else none
      | _ => none
    else none
  | _ => none

/-- Matcher for /^v(20\d{2})\.(\d{1,3})(?:\.(\d{1,3}))?-beta\.(\d{1,4})(?:\.(\d{1,4}))?$/
returning the capture strings (year, revision, patch?, iteration, fix?).
Digit runs are delimiter-separated, so maximal-munch parsing with the
quantifier length bounds is equivalent to the regex. -/
def parseBetaHotfix (s : List Char) : Option (List Char × List Char × Option (List Char) × List Char × Option (List Char)) :=
  match s with
  | 'v' :: '2' :: '0' :: d1 :: d2 :: '.' :: rest =>
    if d1.isDigit ∧ d2.isDigit then
      let r := takeDigits rest
      if 1 ≤ r.1.length ∧ r.1.length ≤ 3 then
        match r.2 with
        | '.' :: rest2 =>
          let p := takeDigits rest2
          if 1 ≤ p.1.length ∧ p.1.length ≤ 3 then
            match parseBetaTail p.2 with
            | some (it, fx) => some (['2', '0', d1, d2], r.1, some p.1, it, fx)
            | none => none
          else none
        | _ =>
          match parseBetaTail r.2 with
          | some (it, fx) => some (['2', '0', d1, d2], r.1, none, it, fx)
          | none => none
      else none
    else none
  | _ => none

/-- The hotfix-and-stage-beta early path of versioning (lines 23-50).
The falsy test on the version string treats the empty string like undefined. -/
def betaHotfix (latestStageVersion : Option (List Char)) : Except String (List Char) :=
  match latestStageVersion with
  | none => .error "No previous \x27beta\x27 release was found to be used as the base for the \x27beta\x27 hotfix."
  | some betaVersion =>
    if betaVersion = [] ∨ parseBetaHotfix betaVersion = none then
      .error (if betaVersion = [] then
        "No previous \x27beta\x27 release was found to be used as the base for the \x27beta\x27 hotfix."
      else
        "The last \x27beta\x27 release \x27" ++ String.mk betaVersion ++ "\x27 does not match the expected format for hotfixing.")
    else
      match parseBetaHotfix betaVersion with
      | none =>
        .error ("Unable to parse the previous \x27beta\x27 version \x27" ++ String.mk betaVersion ++ "\x27 for hotfixing.")
      | some (betaYear, betaRevision, betaPatch, betaIteration, betaFix) =>
        let nextFix := jsAdd1 (jsStrToNum (betaFix.getD ['0']))
        let patchSegment := match betaPatch with
          | some p => '.' :: p
          | none => []
        .ok ('v' :: betaYear ++ '.' :: betaRevision ++ patchSegment ++
          ('-' :: 'b' :: 'e' :: 't' :: 'a' :: '.' :: []) ++ betaIteration ++ '.' :: jsNumToStr nextFix)

/-- Matcher for /^v20\d{2}\.\d{1,3}-alpha.\d{1,4}$/ used by the beta
prerelease path.  The dot after alpha is unescaped in the source, so it
matches any single character except a line terminator. -/
def alphaLooseTest (s : List Char) : Bool :=
  match s with
  | 'v' :: '2' :: '0' :: d1 :: d2 :: '.' :: rest =>
    d1.isDigit && d2.isDigit &&
      (let r := takeDigits rest
       decide (1 ≤ r.1.length ∧ r.1.length ≤ 3) &&
         match r.2 with
         | '-' :: 'a' :: 'l' :: 'p' :: 'h' :: 'a' :: w :: rest2 =>
           decide (w ≠ '\n' ∧ w ≠ '\r' ∧ w ≠ Char.ofNat 8232 ∧ w ≠ Char.ofNat 8233) &&
             rest2.all Char.isDigit && decide (1 ≤ rest2.length ∧ rest2.length ≤ 4)
         | _ => false)
  | _ => false

/-- The stage-beta prerelease path of versioning (lines 83-96): pick the base
(reference if non-empty, else the previous alpha version), validate it, and
replace every occurrence of the token alpha by beta (split + join). -/
def betaFromAlpha (reference : List Char) (previousVersion : Option (List Char)) : Except String (List Char) :=
  let alphaVersion : Option (List Char) :=
    if reference = [] then previousVersion else some reference
  match alphaVersion with
  | none => .error "No previous \x27alpha\x27 release was found to be used as the base for the \x27beta\x27 release."
  | some av =>
    if av = [] then
      .error "No previous \x27alpha\x27 release was found to be used as the base for the \x27beta\x27 release."
    else if alphaLooseTest av then
      .ok (joinWith ('b' :: 'e' :: 't' :: 'a' :: []) (jsSplitSub 'a' ('l' :: 'p' :: 'h' :: 'a' :: []) av))
    else
      .error ("The previous \x27alpha\x27 release " ++ String.mk av ++ " doesn\x27t have a correct version tag and cannot be used as the base for a \x27beta\x27 release.\x27")

/-- The working version derived from the last production version
(lines 52-77): lastProductionVersion?.split(v).pop()?.split(.).reverse()
followed by the year/revision/fix computation.  currentYear is the rendered
current calendar year, an external input of the action. -/
def workingVersion (hotfix : Bool) (lastProductionVersion : Option (List Char)) (currentYear : List Char) : List Char :=
  match lastProductionVersion.bind (fun s =>
      ((popBack (jsSplitChar 'v' s)).1).map (fun t => (jsSplitChar '.' t).reverse)) with
  | some productionVersion =>
    if 2 ≤ productionVersion.length then
      let pop1 := popBack productionVersion
      let productionYear := pop1.1
      let spike := decide (productionYear ≠ some currentYear)
      let year := if hotfix then productionYear else some currentYear
      let pop2 := popBack pop1.2
      let revision0 := pop2.1.bind jsStrToNum
      let revision := if hotfix then revision0 else if spike then some 1 else jsAdd1 revision0
      let fix := if hotfix then '.' :: jsNumToStr (jsAdd1 (jsStrToNum ((popBack pop2.2).1.getD ['0']))) else []
      'v' :: renderOpt year ++ '.' :: (jsNumToStr revision ++ fix)
    else 'v' :: currentYear ++ '.' :: '1' :: []
  | none => 'v' :: currentYear ++ '.' :: '1' :: []

/-- The stage-alpha prerelease decoration (lines 98-117): positional
decomposition of the previous alpha version with pop() on the reversed
split, comparison of year.revision against the working version, and either
an iteration bump or a fresh -alpha.1. -/
def alphaDecorate (previousVersion : Option (List Char)) (version : List Char) : List Char :=
  let alphaVersion : Option (List (List Char)) :=
    previousVersion.bind (fun s =>
      ((popBack (jsSplitChar 'v' s)).1).map (fun t => (jsSplitChar '.' t).reverse))
  let pop1 : Option (List Char) × Option (List (List Char)) :=
    match alphaVersion with
    | none => (none, none)
    | some arr => ((popBack arr).1, some (popBack arr).2)
  let alphaYear := pop1.1
  let pop2 : Option (List Char) × Option (List (List Char)) :=
    match pop1.2 with
    | none => (none, none)
    | some arr => ((popBack arr).1, some (popBack arr).2)
  let alphaRevision : Option (List Char) :=
    pop2.1.bind (fun piece =>
      (popBack ((jsSplitSub '-' ('a' :: 'l' :: 'p' :: 'h' :: 'a' :: []) piece).reverse)).1)
  let alphaIteration : Option (List Char) :=
    match pop2.2 with
    | none => none
    | some arr => (popBack arr).1
  let baseVersion := (jsSplitChar '.' ((popBack (jsSplitChar 'v' version)).1.getD [])).reverse
  let bp1 := popBack baseVersion
  let baseYear := bp1.1
  let bp2 := popBack bp1.2
  let baseRevision := bp2.1
  if ('v' :: renderOpt baseYear ++ '.' :: renderOpt baseRevision)
      = ('v' :: (alphaYear.getD []) ++ '.' :: (alphaRevision.getD [])) then
    'v' :: renderOpt alphaYear ++ '.' :: renderOpt alphaRevision ++
      ('-' :: 'a' :: 'l' :: 'p' :: 'h' :: 'a' :: '.' :: []) ++
      jsNumToStr (jsAdd1 (jsStrToNum (alphaIteration.getD ['0'])))
  else
    'v' :: renderOpt baseYear ++ '.' :: renderOpt baseRevision ++
      ('-' :: 'a' :: 'l' :: 'p' :: 'h' :: 'a' :: '.' :: '1' :: [])

/-- versioning(stage, reference, hotfix, previousVersion, lastProductionVersion,
latestStageVersion).  Except.error models a thrown Error with that message;
the current calendar year string is an explicit parameter. -/
def versioning (stage reference : String) (hotfix : Bool)
    (previousVersion lastProductionVersion latestStageVersion : Option String)
    (currentYear : String) : Except String String :=
  if hotfix = true ∧ stage = "beta" then
    (betaHotfix (latestStageVersion.map String.toList)).map String.mk
  else
    let version := workingVersion hotfix (lastProductionVersion.map String.toList) currentYear.toList
    if hotfix = false ∧ stage ≠ "production" then
      if stage = "beta" then
        (betaFromAlpha reference.toList (previousVersion.map String.toList)).map String.mk
      else
        .ok (String.mk (alphaDecorate (previousVersion.map String.toList) version))
    else .ok (String.mk version)

/-! ### simplifyVersion and compareVersions -/

/-- A character of the class [\w.] of the simplifyVersion regex. -/
def isWordOrDot (c : Char) : Bool :=
  c.isAlphanum || c = '_' || c = '.'

/-- Matcher for /^v(\d+)\.(\d+)(?:\.(\d+))?(?:-([\w.]+))?$/ returning the
captures (major, minor, patch?, prerelease?). -/
def parseSimpleVersion (s : List Char) : Option (List Char × List Char × Option (List Char) × Option (List Char)) :=
  match s with
  | 'v' :: rest =>
    let mj := takeDigits rest
    if mj.1.length = 0 then none
    else match mj.2 with
      | '.' :: r2 =>
        let mn := takeDigits r2
        if mn.1.length = 0 then none
        else match mn.2 with
          | [] => some (mj.1, mn.1, none, none)
          | '.' :: r4 =>
            let pt := takeDigits r4
            if pt.1.length = 0 then none
            else match pt.2 with
              | [] => some (mj.1, mn.1, some pt.1, none)
              | '-' :: r6 =>
                if r6 ≠ [] ∧ r6.all isWordOrDot then some (mj.1, mn.1, some pt.1, some r6) else none
              | _ => none
          | '-' :: r4 =>
            if r4 ≠ [] ∧ r4.all isWordOrDot then some (mj.1, mn.1, none, some r4) else none
          | _ => none
      | _ => none
  | _ => none

/-- The IEEE-754 double overflow threshold: a real whose magnitude is at or
above 2^1024 - 2^970 rounds to Infinity under round-to-nearest-even, and
every finite double is strictly below it.  JS numbers in the sort-key
pipeline are carried as exact integers and rationals, which is faithful up
to the representation rounding of values with more than 53 significant
bits; that rounding preserves sign, order, zero-ness and, away from this
threshold, finiteness. -/
def dblOverflow : Nat := 2 ^ 1024 - 2 ^ 970

/-- A JS number arising from coercing one word-character piece of the
prerelease suffix, or from summing such values: a non-negative integer
(carried exactly), Infinity, or NaN.  Dot and sign characters cannot occur
inside a piece, so fractional and negative piece values are impossible. -/
inductive JNumN
  | fin (n : Nat)
  | inf
  | nan
  deriving DecidableEq

/-- Clamp an exact non-negative integer to a JS double magnitude: values at
or beyond the overflow threshold are Infinity. -/
def jnOfNat (m : Nat) : JNumN :=
  if dblOverflow ≤ m then .inf else .fin m

/-- IEEE addition on non-negative JS numbers (the reduce over piece values):
NaN propagates, Infinity absorbs, finite sums clamp at the threshold. -/
def jnAdd : JNumN → JNumN → JNumN
  | .nan, _ => .nan
  | _, .nan => .nan
  | .inf, _ => .inf
  | _, .inf => .inf
  | .fin a, .fin b => jnOfNat (a + b)

/-- Value of a hexadecimal digit character. -/
def hexDigitVal (c : Char) : Option Nat :=
  if c.isDigit then some (c.toNat - 48)
  else if 'a' ≤ c ∧ c ≤ 'f' then some (c.toNat - 87)
  else if 'A' ≤ c ∧ c ≤ 'F' then some (c.toNat - 55)
  else none

/-- Value of an octal digit character. -/
def octDigitVal (c : Char) : Option Nat :=
  if c.isDigit ∧ c.toNat - 48 < 8 then some (c.toNat - 48) else none

/-- Value of a binary digit character. -/
def binDigitVal (c : Char) : Option Nat :=
  if c = '0' then some 0 else if c = '1' then some 1 else none

/-- Value of a digit string in the given base; none when some character is
not a digit of that base. -/
def radixVal (base : Nat) (f : Char → Option Nat) (l : List Char) : Option Nat :=
  l.foldl (fun acc c => acc.bind fun a => (f c).map fun v => a * base + v) (some 0)

/-- The decimal digit count of a natural number. -/
def numDigits (n : Nat) : Nat := (natRepr n).length

/-- A decimal mantissa scaled by a non-negative decimal exponent, clamped at
the double overflow threshold: when the digit count plus the exponent
reaches 310 the value is at least 10^309 and hence Infinity, without
materialising an astronomic power of ten; below that the value is computed
exactly and compared against the threshold. -/
def wordExpVal (M e : Nat) : JNumN :=
  if M = 0 then .fin 0
  else if 310 ≤ numDigits M + e then .inf
  else jnOfNat (M * 10 ^ e)

/-- The decimal forms a word-character piece can take: digits, optionally
followed by the exponent marker e or E and a run of exponent digits (no
sign and no dot can occur inside a piece). -/
def wordDecBody (l : List Char) : JNumN :=
  let ip := takeDigits l
  if ip.1.length = 0 then .nan
  else if ip.2.length = 0 then jnOfNat (digitsVal ip.1)
  else if (ip.2.head? = some 'e' ∨ ip.2.head? = some 'E') ∧ ip.2.tail.length ≠ 0 ∧
      ip.2.tail.all Char.isDigit then
    wordExpVal (digitsVal ip.1) (digitsVal ip.2.tail)
  else .nan

/-- A radix-marked integer body (after 0x, 0o or 0b): NaN when no digit
follows the marker or a digit is out of range for the base. -/
def radixNat (base : Nat) (f : Char → Option Nat) (l : List Char) : JNumN :=
  if l.length = 0 then .nan
  else match radixVal base f l with
    | some v => jnOfNat v
    | none => .nan

/-- ToNumber of a string of word characters (the only shapes a prerelease
dot-piece can take): the empty piece is 0, Infinity is Infinity, plain
decimal digits give their value, digits with an exponent part scale by a
power of ten, the 0x / 0o / 0b radix forms give the value of their digits,
and any other word string (alpha, beta, an underscore, a stray letter) is
NaN. -/
def jsWordNum (l : List Char) : JNumN :=
  if l.length = 0 then .fin 0
  else if l = ('I' :: 'n' :: 'f' :: 'i' :: 'n' :: 'i' :: 't' :: 'y' :: []) then .inf
  else if l.head? = some '0' ∧ (l.tail.head? = some 'x' ∨ l.tail.head? = some 'X') then
    radixNat 16 hexDigitVal l.tail.tail
  else if l.head? = some '0' ∧ (l.tail.head? = some 'o' ∨ l.tail.head? = some 'O') then
    radixNat 8 octDigitVal l.tail.tail
  else if l.head? = some '0' ∧ (l.tail.head? = some 'b' ∨ l.tail.head? = some 'B') then
    radixNat 2 binDigitVal l.tail.tail
  else wordDecBody l

/-- Value of one dot-piece of the prerelease suffix, exactly as the source
computes it: isNaN(Number(piece)) ? (alpha: 1000, beta: 4000, other: 0)
: Number(piece).  A piece that coerces to a number keeps that value,
including Infinity; only NaN pieces fall back to the alpha / beta / 0
weights. -/
def pieceVal (p : List Char) : JNumN :=
  match jsWordNum p with
  | .nan =>
    .fin (if p = ('a' :: 'l' :: 'p' :: 'h' :: 'a' :: []) then 1000
      else if p = ('b' :: 'e' :: 't' :: 'a' :: []) then 4000 else 0)
  | v => v

/-- pre.split(.).map(pieceVal).reduce((p, c) => p + c): a reduce without an
initial value over a never-empty split result, folded from its head with
IEEE addition. -/
def preReleaseVal (pre : List Char) : JNumN :=
  match (jsSplitChar '.' pre).map pieceVal with
  | [] => .fin 0
  | x :: xs => xs.foldl jnAdd x

/-- Drop the trailing zero digits of a digit list, given reversed. -/
def stripZerosRev : List Char → List Char
  | [] => []
  | c :: r => if c = '0' then stripZerosRev r else c :: r

/-- JS ToString of an integer at or above 10^21: exponential notation with
the significant digits of the value, a dot after the first digit when more
than one significant digit remains, and the exponent e+(digit count - 1).
The significand is carried exactly where JS prints the rounded double. -/
def renderBigNat (n : Nat) : List Char :=
  match natRepr n with
  | [] => []
  | d :: rest =>
    d :: ((if (stripZerosRev rest.reverse).reverse.length = 0 then []
      else '.' :: (stripZerosRev rest.reverse).reverse) ++
        ('e' :: '+' :: natRepr rest.length))

/-- JS ToString of a non-negative integer: plain decimal digits below 10^21,
exponential notation at or above it. -/
def renderNat (n : Nat) : List Char :=
  if n < 10 ^ 21 then natRepr n else renderBigNat n

/-- JS template rendering of a non-negative-integer, infinite or NaN
number. -/
def renderJNumN : JNumN → List Char
  | .fin n => renderNat n
  | .inf => 'I' :: 'n' :: 'f' :: 'i' :: 'n' :: 'i' :: 't' :: 'y' :: []
  | .nan => 'N' :: 'a' :: 'N' :: []

/-- A JS number as the final unary plus of simplifyVersion and the
subtraction of compareVersions can produce it: a finite value (carried as
an exact rational), positive or negative Infinity, or NaN. -/
inductive JsNumR
  | fin (q : ℚ)
  | posInf
  | negInf
  | nan
  deriving DecidableEq

/-- Clamp an exact rational to a JS double value: magnitudes at or beyond
the overflow threshold become the matching Infinity. -/
def jrOfQ (q : ℚ) : JsNumR :=
  if (dblOverflow : ℚ) ≤ q then .posInf
  else if q ≤ -(dblOverflow : ℚ) then .negInf
  else .fin q

/-- Exact rational subtraction, evaluated through integers when both
operands are integral (every reachable sort key is): jsSubQ a b = a - b,
proved by jsSubQ_eq below; the integer route keeps the definition
evaluable by reduction on concrete runs. -/
def jsSubQ (a b : ℚ) : ℚ :=
  if a.den = 1 ∧ b.den = 1 then ((a.num - b.num : Int) : ℚ) else a - b

/-- Negation of a JS number (a leading minus sign on a numeric literal). -/
def jrNeg : JsNumR → JsNumR
  | .fin q => .fin (-q)
  | .posInf => .negInf
  | .negInf => .posInf
  | .nan => .nan

/-- IEEE subtraction: NaN propagates, Infinity minus the same Infinity is
NaN, an Infinity dominates a finite operand, and finite differences clamp
at the overflow threshold. -/
def jsSub : JsNumR → JsNumR → JsNumR
  | .nan, _ => .nan
  | _, .nan => .nan
  | .posInf, .posInf => .nan
  | .posInf, _ => .posInf
  | .negInf, .negInf => .nan
  | .negInf, _ => .negInf
  | .fin _, .posInf => .negInf
  | .fin _, .negInf => .posInf
  | .fin a, .fin b => jrOfQ (jsSubQ a b)

/-- The value of an unsigned decimal literal with mantissa M (the integer
and fractional digits read as one integer) and total decimal exponent e
(the exponent value minus the fractional digit count): a zero mantissa is
zero; a magnitude provably beyond the double range (digit count plus
exponent at least 310) is Infinity and a magnitude provably below half the
smallest denormal (digit count plus exponent at most -325) is zero, in both
cases without materialising an astronomic power of ten; the remaining band
is computed exactly and clamped at the overflow threshold. -/
def decValue (M : Nat) (e : Int) : JsNumR :=
  if M = 0 then .fin 0
  else if 310 ≤ (numDigits M : Int) + e then .posInf
  else if (numDigits M : Int) + e ≤ -325 then .fin 0
  else if 0 ≤ e then jrOfQ ((M * 10 ^ e.toNat : Nat) : ℚ)
  else jrOfQ ((M : ℚ) / 10 ^ (-e).toNat)

/-- The digits of an exponent part, with its sign already extracted. -/
def decExpDigits (M : Nat) (neg : Bool) (ds : List Char) (fracLen : Nat) : JsNumR :=
  if ds.length ≠ 0 ∧ ds.all Char.isDigit then
    decValue M ((if neg then -(digitsVal ds : Int) else (digitsVal ds : Int)) -
      (fracLen : Int))
  else .nan

/-- The optional exponent part of a decimal literal after the mantissa:
empty, or e / E followed by an optionally signed digit run; anything else
makes the literal invalid (NaN). -/
def decExpTail (M fracLen : Nat) (l : List Char) : JsNumR :=
  if l.length = 0 then decValue M (-(fracLen : Int))
  else if l.head? = some 'e' ∨ l.head? = some 'E' then
    if l.tail.head? = some '+' then decExpDigits M false l.tail.tail fracLen
    else if l.tail.head? = some '-' then decExpDigits M true l.tail.tail fracLen
    else decExpDigits M false l.tail fracLen
  else .nan

/-- An unsigned decimal literal: integer digits, an optional dot with
fractional digits, and an optional exponent part; at least one mantissa
digit is required.  takeDigits l is the integer-digit split and, behind a
dot, takeDigits of the remainder is the fractional-digit split. -/
def decBody (l : List Char) : JsNumR :=
  if (takeDigits l).2.head? = some '.' then
    if (takeDigits l).1.length = 0 ∧ (takeDigits (takeDigits l).2.tail).1.length = 0 then
      .nan
    else
      decExpTail (digitsVal ((takeDigits l).1 ++ (takeDigits (takeDigits l).2.tail).1))
        (takeDigits (takeDigits l).2.tail).1.length (takeDigits (takeDigits l).2.tail).2
  else if (takeDigits l).1.length = 0 then .nan
  else decExpTail (digitsVal (takeDigits l).1) 0 (takeDigits l).2

/-- A radix-marked integer body of the literal grammar, with the value as a
rational (it cannot arise from the rendered key, and is present so that the
literal grammar is covered in full). -/
def radixQ (base : Nat) (f : Char → Option Nat) (l : List Char) : JsNumR :=
  if l.length = 0 then .nan
  else match radixVal base f l with
    | some v => jrOfQ (v : ℚ)
    | none => .nan

/-- ToNumber of an unsigned numeric literal: Infinity, a radix-marked
integer, or a decimal literal. -/
def jsKeyNumUnsigned (l : List Char) : JsNumR :=
  if l = ('I' :: 'n' :: 'f' :: 'i' :: 'n' :: 'i' :: 't' :: 'y' :: []) then .posInf
  else if l.head? = some '0' ∧ (l.tail.head? = some 'x' ∨ l.tail.head? = some 'X') then
    radixQ 16 hexDigitVal l.tail.tail
  else if l.head? = some '0' ∧ (l.tail.head? = some 'o' ∨ l.tail.head? = some 'O') then
    radixQ 8 octDigitVal l.tail.tail
  else if l.head? = some '0' ∧ (l.tail.head? = some 'b' ∨ l.tail.head? = some 'B') then
    radixQ 2 binDigitVal l.tail.tail
  else decBody l

/-- JS ToNumber of the concatenated key string (the final unary plus of
simplifyVersion).  The strings this code base coerces contain no
whitespace, so trimming is omitted; the empty string is 0 and a leading
sign applies to the unsigned literal behind it. -/
def jsKeyNum (l : List Char) : JsNumR :=
  if l.length = 0 then .fin 0
  else if l.head? = some '+' then jsKeyNumUnsigned l.tail
  else if l.head? = some '-' then jrNeg (jsKeyNumUnsigned l.tail)
  else jsKeyNumUnsigned l

/-- The info object of simplifyVersion and its rendered, re-coerced key:
major, 100+minor, 100+patch (0 when the patch group is absent) and the
prerelease weight (8000 when no prerelease suffix) are rendered in
sequence and the concatenation is coerced back to a number.  An Infinity
weight renders as the word Infinity inside the key string and makes the
key NaN. -/
def simplifyKey (major minor : List Char) (patch pre : Option (List Char)) : JsNumR :=
  jsKeyNum (renderNat (digitsVal major) ++ renderNat (100 + digitsVal minor) ++
    renderNat (100 + (match patch with | some p => digitsVal p | none => 0)) ++
    renderJNumN (match pre with | some p => preReleaseVal p | none => JNumN.fin 8000))

/-- simplifyVersion: Invalid version format for a string that fails the
version regex, and the rendered-and-coerced sort key for a match. -/
def simplifyVersion (version : String) : Except String JsNumR :=
  match parseSimpleVersion version.toList with
  | none => .error ("Invalid version format: " ++ version)
  | some (major, minor, patch, pre) => .ok (simplifyKey major minor patch pre)

/-- Decidable equality of guard results, so that concrete runs of
simplifyVersion and compareVersions can be checked by evaluation. -/
instance : DecidableEq (Except String JsNumR) := fun a b =>
  match a, b with
  | .error x, .error y =>
    if h : x = y then .isTrue (by rw [h])
    else .isFalse (fun c => h (Except.error.inj c))
  | .ok x, .ok y =>
    if h : x = y then .isTrue (by rw [h])
    else .isFalse (fun c => h (Except.ok.inj c))
  | .error x, .ok y => .isFalse (fun c => Except.noConfusion c)
  | .ok x, .error y => .isFalse (fun c => Except.noConfusion c)

/-- compareVersions(a, b) = simplifyVersion(b) - simplifyVersion(a); the JS
argument order evaluates simplifyVersion(b) first, so its format error wins
when both arguments are malformed. -/
def compareVersions (a b : String) : Except String JsNumR :=
  match simplifyVersion b with
  | .error m => .error m
  | .ok sb =>
    match simplifyVersion a with
    | .error m => .error m
    | .ok sa => .ok (jsSub sb sa)

/-! ### Branch guards -/

inductive StageBranch
  | develop
  | main
  | release
  deriving DecidableEq

/-- The JS error classes thrown by the guards: Error and the
BlockingHotfixPRError subtype. -/
inductive JsError
  | plain (message : String)
  | blockingHotfixPR (message : String)
  deriving DecidableEq

def natStr (n : Nat) : String := String.mk (natRepr n)

structure AssertOpenPROptions where
  baseBranch : StageBranch
  forbiddenBranches : List StageBranch
  summaryTitle : String
  errorMessage : Nat → String

def DEFAULT_ASSERT_OPEN_PR_OPTIONS : AssertOpenPROptions where
  baseBranch := .develop
  forbiddenBranches := [.main, .release]
  summaryTitle := "Open Hotfix PRs Detected:"
  errorMessage := fun count =>
    "Detected " ++ natStr count ++ " open hotfix PR(s) into develop based on main or release."

def STAGE_ALPHA_SECOND_CHECK : AssertOpenPROptions where
  baseBranch := .release
  forbiddenBranches := [.main]
  summaryTitle := "Open main->release PRs Detected:"
  errorMessage := fun count =>
    "Detected " ++ natStr count ++ " open PR(s) into release based on main. Merge them before starting an alpha release."

def STAGE_BETA_CHECK : AssertOpenPROptions where
  baseBranch := .release
  forbiddenBranches := [.main]
  summaryTitle := "Open main->release PRs Detected:"
  errorMessage := fun count =>
    "Detected " ++ natStr count ++ " open PR(s) into release based on main. Merge them before starting a beta release."

/-- STAGE_OPEN_PR_CHECKS, looked up by the normalized stage string; a stage
that is not a key of the record yields no checks. -/
def STAGE_OPEN_PR_CHECKS : String → List AssertOpenPROptions
  | "alpha" => [DEFAULT_ASSERT_OPEN_PR_OPTIONS, STAGE_ALPHA_SECOND_CHECK]
  | "beta" => [STAGE_BETA_CHECK]
  | _ => []

/-- One open pull request targeting the queried base branch.  distances b is
the fork distance forkDist(b, localHead) git reports for the fetched head of
this PR (none = Infinity). -/
structure OpenPR where
  number : Nat
  title : String
  url : String
  draft : Bool
  distances : StageBranch → Option Nat

/-- The observable outcome of one assertOpenPRs call: whether the offender
summary was written, and the normal return or thrown error. -/
structure OpenPRRun where
  summaryWritten : Bool
  result : Except JsError Unit

/-- The per-PR offender test of assertOpenPRs: the best base over the
preference order (baseBranch first, then the normalized forbidden branches)
is not the base branch, is a forbidden branch, and has finite distance. -/
def openPROffender (baseBranch : StageBranch) (normalizedForbidden : List StageBranch)
    (measure : StageBranch → Option Nat) : Bool :=
  match chooseBestBase measure (baseBranch :: normalizedForbidden) with
  | some best =>
    decide (best ≠ baseBranch) && decide (best ∈ normalizedForbidden) && (measure best).isSome
  | none => false

/-- assertOpenPRs (most complete variant): prs is the page-merged list of open
PRs targeting opts.baseBranch.  The git fetches are external effects; the
record of distances passed to chooseBestBase maps branches that are not
measured to Infinity, exactly as in the source. -/
def assertOpenPRs (prs : List OpenPR) (includeDrafts : Bool) (opts : AssertOpenPROptions) : OpenPRRun :=
  let normalizedForbidden :=
    jsDedup (opts.forbiddenBranches.filter (fun b => decide (b ≠ opts.baseBranch)))
  if normalizedForbidden.length = 0 then ⟨false, .ok ()⟩
  else
    let candidates := if includeDrafts then prs else prs.filter (fun p => !p.draft)
    if candidates.length = 0 then ⟨false, .ok ()⟩
    else
      let toMeasure := jsDedup (opts.baseBranch :: normalizedForbidden)
      let offenders := candidates.filter (fun pr =>
        openPROffender opts.baseBranch normalizedForbidden
          (fun b => if b ∈ toMeasure then pr.distances b else none))
      if 0 < offenders.length then
        ⟨true, .error (.blockingHotfixPR (opts.errorMessage offenders.length))⟩
      else ⟨false, .ok ()⟩

inductive HotfixStage
  | main
  | release
  deriving DecidableEq

def HotfixStage.branch : HotfixStage → StageBranch
  | .main => .main
  | .release => .release

/-- The preference order of assertCorrectHotfixBranch: expected stage first,
competing stage branch second, develop last. -/
def hotfixPreference : HotfixStage → List StageBranch
  | .main => [.main, .release, .develop]
  | .release => [.release, .main, .develop]

/-- What assertCorrectHotfixBranch observes from git about the branch under
test: fork distances, canonical branch tips (rev-parse, none on failure) and
fork points to the three canonical branches. -/
structure HotfixRepoView where
  distances : StageBranch → Option Nat
  branchTips : StageBranch → Option String
  forkPoints : StageBranch → Option String

def shareTip (v : HotfixRepoView) (a b : StageBranch) : Bool :=
  match v.branchTips a, v.branchTips b with
  | some x, some y => decide (x = y)
  | _, _ => false

/-- The normalization step: a branch other than the stage branch that shares
the stage branch tip gets distance Infinity. -/
def normalizedDistance (v : HotfixRepoView) (s b : StageBranch) : Option Nat :=
  if b ≠ s ∧ shareTip v b s = true then none else v.distances b

/-- d ≤ e with both finite (the d !== Infinity && e !== Infinity && d <= e
test of the competing-branch filter). -/
def finLe : Option Nat → Option Nat → Bool
  | some a, some b => decide (a ≤ b)
  | _, _ => false

/-- Object.entries order of the distances record. -/
def allBranches : List StageBranch := [.develop, .main, .release]

def competingBranches (v : HotfixRepoView) (s : StageBranch) : List StageBranch :=
  allBranches.filter (fun b =>
    decide (b ≠ s) && finLe (normalizedDistance v s b) (normalizedDistance v s s) &&
      !(shareTip v b s))

def stageForkMatchesHead (v : HotfixRepoView) (s : StageBranch) : Bool :=
  match v.forkPoints s, v.branchTips s with
  | some f, some t => decide (f = t)
  | _, _ => false

/-- The pass/fail decision of assertCorrectHotfixBranch: true means the
function returns normally, false means it writes the failure summary and
throws the not-uniquely-based Error. -/
def assertCorrectHotfixBranch (v : HotfixRepoView) (st : HotfixStage) : Bool :=
  let s := st.branch
  let detected := chooseBestBase v.distances (hotfixPreference st)
  let tieOrBetterOther := decide (competingBranches v s ≠ [])
  (decide (detected = some s) && !tieOrBetterOther) ||
    (decide (detected = some s) && stageForkMatchesHead v s)

/-! ### ensureFreshWorkflowRun -/

def UNMERGED_PR_FLAG_ARTIFACT : String := "release-startup-unmerged-pr-flag"

/-- One repository-wide artifact: name (the ?? of a null name yields a string
that is never the flag name) and the recorded parent workflow run id. -/
structure RepoArtifact where
  name : String
  workflowRunId : Option Nat

/-- ASCII model of toLowerCase / toUpperCase on the stage names handled here. -/
def jsToLowerChar (c : Char) : Char :=
  if 'A' ≤ c ∧ c ≤ 'Z' then Char.ofNat (c.toNat + 32) else c

def jsToUpperChar (c : Char) : Char :=
  if 'a' ≤ c ∧ c ≤ 'z' then Char.ofNat (c.toNat - 32) else c

def jsToLowerStr (s : String) : String := String.mk (s.toList.map jsToLowerChar)

/-- The common JS whitespace / line-terminator set removed by trim. -/
def isJsSpace (c : Char) : Bool :=
  c = ' ' || c = '\t' || c = '\n' || c = '\r' ||
    c = Char.ofNat 11 || c = Char.ofNat 12 || c = Char.ofNat 160 ||
    c = Char.ofNat 65279 || c = Char.ofNat 8232 || c = Char.ofNat 8233

def jsTrim (s : String) : String :=
  String.mk (((s.toList.dropWhile isJsSpace).reverse.dropWhile isJsSpace).reverse)

def normalizedStageOf (stage : Option String) : Option String :=
  stage.map (fun s => jsToLowerStr (jsTrim s))

/-- stageLabel: capitalized normalized stage, defaulting to Alpha when the
stage is missing or empty (the falsy test of the source). -/
def stageLabelOf (normalizedStage : Option String) : String :=
  match normalizedStage with
  | none => "Alpha"
  | some s =>
    match s.toList with
    | [] => "Alpha"
    | c :: rest => String.mk (jsToUpperChar c :: rest)

def rerunMessage (stageLabel : String) : String :=
  "⚠️ Do not re-run this " ++ jsToLowerStr stageLabel ++
    " release workflow run. ✅️ When the PRs are merged, start a brand-new " ++
    stageLabel ++ " Release to prevent un-syncing the branches."

/-- The inputs of one ensureFreshWorkflowRun call: the current run artifact
names, the repository-wide artifact pages, the run id, the raw stage input,
whether a git checkout exists, the optional remote URL, and the open PR
lists the GitHub API returns per base branch. -/
structure EnsureFreshInput where
  runArtifactNames : List String
  repoArtifactPages : List (List RepoArtifact)
  runId : Nat
  stage : Option String
  hasCheckout : Bool
  gitRemoteUrl : Option String
  prsByBase : StageBranch → List OpenPR

/-- The flag detection: the current run artifacts first, then the
repository-wide pages filtered by parent run id (the source breaks out of
the page loop at the first hit, which agrees with any). -/
def flagFound (inp : EnsureFreshInput) : Bool :=
  inp.runArtifactNames.any (fun n => n == UNMERGED_PR_FLAG_ARTIFACT) ||
    inp.repoArtifactPages.any (fun page =>
      page.any (fun a => a.name == UNMERGED_PR_FLAG_ARTIFACT && a.workflowRunId == some inp.runId))

/-- enforceStageOpenPrChecks: run the configured checks in order; a
BlockingHotfixPRError triggers the best-effort flag-artifact upload (an
external side effect that never changes the outcome) and every error is
rethrown. -/
def runStageChecks : List AssertOpenPROptions → (StageBranch → List OpenPR) → Except JsError Unit
  | [], _ => .ok ()
  | o :: rest, prsByBase =>
    match (assertOpenPRs (prsByBase o.baseBranch) false o).result with
    | .error e => .error e
    | .ok _ => runStageChecks rest prsByBase

/-- The no-flag continuation of ensureFreshWorkflowRun: for a stage that has
configured open-PR checks, ensure a repository checkout exists
(ensureRepositoryForStageChecks throws when none exists and no git URL was
provided; prepareRepository itself is an external git effect modelled as
succeeding) and run the checks in order. -/
def stageSafeguards (normalizedStage : Option String) (hasCheckout : Bool)
    (gitRemoteUrl : Option String) (prsByBase : StageBranch → List OpenPR) :
    Except JsError Unit :=
  match normalizedStage with
  | none => .ok ()
  | some s =>
    match STAGE_OPEN_PR_CHECKS s with
    | [] => .ok ()
    | o :: rest =>
      if hasCheckout = false ∧ gitRemoteUrl = none then
        .error (.plain "Unable to run stage safeguards: repository checkout is missing and no git URL was provided.")
      else runStageChecks (o :: rest) prsByBase

/-- ensureFreshWorkflowRun (most complete variant). -/
def ensureFreshWorkflowRun (inp : EnsureFreshInput) : Except JsError Unit :=
  if flagFound inp then
    .error (.plain (rerunMessage (stageLabelOf (normalizedStageOf inp.stage))))
  else
    stageSafeguards (normalizedStageOf inp.stage) inp.hasCheckout inp.gitRemoteUrl inp.prsByBase

/-! ### Claim C7: the chooseBestBase scan -/

/-- The distances map of the tie examples: main and release both at 2. -/
def exDist : String → Option Nat :=
  fun s => if s = "main" then some 2 else if s = "release" then some 2 else none

/-- C7: chooseBestBase starts with the first candidate of the preference
order as provisional best and scans left to right; a later candidate
displaces the best exactly when it has a strictly smaller finite distance or
the best is infinite and the candidate finite; equal finite distances never
displace, so the earliest tied candidate of the preference order wins:
with distances main=2, release=2 the order [main, release] picks main and
the order [release, main] picks release. -/
theorem chooseBestBase_scan_spec :
    (∀ (d : String → Option Nat) (b : String) (rest : List String),
      chooseBestBase d (b :: rest) = some (chooseBestBaseAux d b rest)) ∧
    (∀ (d : String → Option Nat) (best b : String) (rest : List String),
      chooseBestBaseAux d best (b :: rest) =
        chooseBestBaseAux d (if betterDist (d best) (d b) then b else best) rest) ∧
    (∀ x y : Option Nat, betterDist x y = true ↔
      ((x = none ∧ ∃ n, y = some n) ∨ (∃ m n, x = some m ∧ y = some n ∧ n < m))) ∧
    chooseBestBase exDist ["main", "release"] = some "main" ∧
    chooseBestBase exDist ["release", "main"] = some "release" := by
  refine ⟨fun d b rest => rfl, ?_, ?_, ?_, ?_⟩
  · intro d best b rest
    rw [chooseBestBaseAux]
    by_cases h : betterDist (d best) (d b) = true
    · rw [if_pos h, if_pos h]
    · rw [if_neg h, if_neg h]
  · intro x y
    cases x <;> cases y <;> simp [betterDist]
  · rfl
  · rfl

/-- C7 witness: the displacement rule evaluated at concrete distances through
the theorem. -/
theorem chooseBestBase_scan_spec_witness :
    betterDist (some 5) (some 3) = true ∧ betterDist (some 3) (some 3) ≠ true := by
  constructor
  · exact (chooseBestBase_scan_spec.2.2.1 (some 5) (some 3)).mpr
      (Or.inr ⟨5, 3, rfl, rfl, by omega⟩)
  · intro h
    rcases (chooseBestBase_scan_spec.2.2.1 (some 3) (some 3)).mp h with ⟨h1, _⟩ | ⟨m, n, h1, h2, h3⟩
    · cases h1
    · rw [show m = 3 from (Option.some_inj.mp h1).symm] at h3
      rw [show n = 3 from (Option.some_inj.mp h2).symm] at h3
      omega

/-! ### Claim C6 evidence: the unescaped dot of the alpha-base regex -/

/-- C6 (code bug evidence): the base v2025.3-alphaX2 does not match the
intended grammar v<year>.<rev>-alpha.<iter>, yet versioning does not throw
the malformed-version error: the unescaped dot of the pattern -alpha.\d
accepts the X and the result is the alpha-token substitution v2025.3-betaX2. -/
theorem versioning_beta_accepts_malformed_alpha_base :
    versioning "beta" "" false (some "v2025.3-alphaX2") none none "2025" =
      Except.ok "v2025.3-betaX2" := by
  rfl

/-! ### Claim C1 counterexample: distinct versions comparing equal -/

set_option maxRecDepth 40000 in
/-- C1 counterexample: the prerelease weight sums iteration and fix, so the
distinct tag-grammar versions v2025.3-beta.1.2 and v2025.3-beta.2.1 get the
same sort key and compareVersions returns 0 for them; and the accepted
suffix Infinity coerces to an infinite prerelease weight and a NaN sort
key, so the self-comparison of v1.1-Infinity is NaN rather than 0 and the
comparator is not even reflexive outside the finite-key domain. -/
theorem compareVersions_beta_fix_collision :
    (compareVersions "v2025.3-beta.1.2" "v2025.3-beta.2.1" =
        Except.ok (JsNumR.fin 0) ∧
      "v2025.3-beta.1.2" ≠ "v2025.3-beta.2.1") ∧
    compareVersions "v1.1-Infinity" "v1.1-Infinity" = Except.ok JsNumR.nan := by
  refine ⟨⟨by decide, by decide⟩, by decide⟩

/-! ### Claim C10 counterexample: malformed alpha base, not a fresh iteration -/

/-- C10 counterexample: the unparseable previous version v2025.4.7 does not
produce a fresh v2025.4-alpha.1; the positional decomposition reuses its
third component as the iteration and yields v2025.4-alpha.8. -/
theorem versioning_alpha_malformed_not_fresh :
    versioning "alpha" "" false (some "v2025.4.7") (some "v2025.3") none "2025" =
      Except.ok "v2025.4-alpha.8" ∧
    Except.ok "v2025.4-alpha.8" ≠
      (Except.ok "v2025.4-alpha.1" : Except String String) := by
  constructor
  · rfl
  · intro h
    exact absurd (Except.ok.inj h) (by decide)

/-! ### Claim C2: assertCorrectHotfixBranch -/

theorem mem_allBranches (b : StageBranch) : b ∈ allBranches := by
  cases b <;> simp [allBranches]

theorem normalizedDistance_self (v : HotfixRepoView) (s : StageBranch) :
    normalizedDistance v s s = v.distances s := by
  rw [normalizedDistance, if_neg]
  intro h
  exact h.1 rfl

theorem normalizedDistance_cases (v : HotfixRepoView) (s b : StageBranch) :
    normalizedDistance v s b = none ∨ normalizedDistance v s b = v.distances b := by
  rw [normalizedDistance]
  by_cases h : b ≠ s ∧ shareTip v b s = true
  · rw [if_pos h]; exact Or.inl rfl
  · rw [if_neg h]; exact Or.inr rfl

/-- The competing-branch notion exactly as the claim words it: another
canonical branch whose distance, after the shared-tip normalization, is
finite and at most the stage branch distance (a finite distance is at most
an infinite one). -/
def claimCompeting (v : HotfixRepoView) (s : StageBranch) (b : StageBranch) : Prop :=
  b ≠ s ∧ ∃ db, normalizedDistance v s b = some db ∧
    ∀ de, v.distances s = some de → db ≤ de

/-- The pass condition exactly as the claim words it: the detected closest
branch (preference order placing the stage branch first) is the stage
branch, and either no competing branch exists or the stage branch fork
point equals its tip. -/
def hotfixClaimOk (v : HotfixRepoView) (st : HotfixStage) : Prop :=
  chooseBestBase v.distances (hotfixPreference st) = some st.branch ∧
    ((∀ b, ¬ claimCompeting v st.branch b) ∨ stageForkMatchesHead v st.branch = true)

theorem mem_competingBranches (v : HotfixRepoView) (s b : StageBranch) :
    b ∈ competingBranches v s ↔ (claimCompeting v s b ∧ v.distances s ≠ none) := by
  rw [competingBranches, List.mem_filter]
  constructor
  · intro ⟨_, hp⟩
    simp only [Bool.and_eq_true, decide_eq_true_eq, Bool.not_eq_true'] at hp
    obtain ⟨⟨hne, hle⟩, hst⟩ := hp
    rw [normalizedDistance_self] at hle
    cases hnb : normalizedDistance v s b with
    | none => rw [hnb] at hle; simp [finLe] at hle
    | some db =>
      cases hs : v.distances s with
      | none => rw [hnb, hs] at hle; simp [finLe] at hle
      | some de =>
        rw [hnb, hs] at hle
        simp only [finLe, decide_eq_true_eq] at hle
        refine ⟨⟨hne, db, hnb, ?_⟩, by simp⟩
        intro de' hde'
        rw [hs] at hde'
        rw [← Option.some_inj.mp hde']
        exact hle
  · intro ⟨⟨hne, db, hnb, hall⟩, hfin⟩
    refine ⟨mem_allBranches b, ?_⟩
    simp only [Bool.and_eq_true, decide_eq_true_eq, Bool.not_eq_true']
    cases hs : v.distances s with
    | none => exact absurd hs hfin
    | some de =>
      have hde : db ≤ de := hall de hs
      have hst : shareTip v b s = false := by
        cases hsb : shareTip v b s
        · rfl
        · rw [normalizedDistance, if_pos ⟨hne, hsb⟩] at hnb
          cases hnb
      refine ⟨⟨hne, ?_⟩, hst⟩
      rw [normalizedDistance_self, hnb, hs]
      simp only [finLe, decide_eq_true_eq]
      exact hde

theorem hotfixPreference_eq (st : HotfixStage) :
    ∃ o1 o2, hotfixPreference st = [st.branch, o1, o2] ∧
      (∀ b : StageBranch, b = st.branch ∨ b = o1 ∨ b = o2) := by
  cases st with
  | main =>
    refine ⟨.release, .develop, rfl, ?_⟩
    intro b; cases b <;> simp [HotfixStage.branch]
  | release =>
    refine ⟨.main, .develop, rfl, ?_⟩
    intro b; cases b <;> simp [HotfixStage.branch]

theorem detected_stage_all_none (v : HotfixRepoView) (st : HotfixStage)
    (hdet : chooseBestBase v.distances (hotfixPreference st) = some st.branch)
    (hnone : v.distances st.branch = none) :
    ∀ b, v.distances b = none := by
  obtain ⟨o1, o2, hpref, hcover⟩ := hotfixPreference_eq st
  rw [hpref] at hdet
  rw [chooseBestBase] at hdet
  have haux : chooseBestBaseAux v.distances st.branch [o1, o2] = st.branch :=
    Option.some_inj.mp hdet
  by_cases h1 : v.distances o1 = none
  · by_cases h2 : v.distances o2 = none
    · intro b
      rcases hcover b with hb | hb | hb <;> rw [hb]
      · exact hnone
      · exact h1
      · exact h2
    · exfalso
      have := chooseBestBaseAux_finds_finite v.distances [o1, o2] st.branch hnone
        ⟨o2, by simp, h2⟩
      rw [haux] at this
      exact this hnone
  · exfalso
    have := chooseBestBaseAux_finds_finite v.distances [o1, o2] st.branch hnone
      ⟨o1, by simp, h1⟩
    rw [haux] at this
    exact this hnone

/-- C2: assertCorrectHotfixBranch returns without throwing exactly when the
detected closest branch is the intended stage branch and either no competing
branch exists (finite normalized distance at most the stage branch distance)
or the stage branch fork point equals its tip; and any branch strictly
closer to develop than to main (or with infinite distance to main but
finite to develop) fails the check against main. -/
theorem assertCorrectHotfixBranch_pass_iff :
    (∀ (v : HotfixRepoView) (st : HotfixStage),
      assertCorrectHotfixBranch v st = true ↔ hotfixClaimOk v st) ∧
    (∀ (v : HotfixRepoView) (n : Nat), v.distances .develop = some n →
      (v.distances .main = none ∨ ∃ m, v.distances .main = some m ∧ n < m) →
      assertCorrectHotfixBranch v .main = false) := by
  constructor
  · intro v st
    rw [assertCorrectHotfixBranch, hotfixClaimOk]
    simp only [Bool.or_eq_true, Bool.and_eq_true, decide_eq_true_eq, Bool.not_eq_true',
      decide_eq_false_iff_not, Decidable.not_not]
    constructor
    · rintro (⟨hdet, hcomp⟩ | ⟨hdet, hsfmh⟩)
      · refine ⟨hdet, Or.inl ?_⟩
        intro b hb
        by_cases hs : v.distances st.branch = none
        · obtain ⟨_, db, hnb, _⟩ := hb
          have hall := detected_stage_all_none v st hdet hs
          rcases normalizedDistance_cases v st.branch b with hcase | hcase
          · rw [hcase] at hnb; cases hnb
          · rw [hcase, hall b] at hnb; cases hnb
        · have hmem : b ∈ competingBranches v st.branch :=
            (mem_competingBranches v st.branch b).mpr ⟨hb, hs⟩
          rw [hcomp] at hmem
          exact absurd hmem (List.not_mem_nil b)
      · exact ⟨hdet, Or.inr hsfmh⟩
    · rintro ⟨hdet, hrest | hsfmh⟩
      · refine Or.inl ⟨hdet, ?_⟩
        rw [List.eq_nil_iff_forall_not_mem]
        intro b hmem
        exact hrest b ((mem_competingBranches v st.branch b).mp hmem).1
      · exact Or.inr ⟨hdet, hsfmh⟩
  · intro v n hdev hm
    have hdet : chooseBestBaseAux v.distances .main [.release, .develop] ≠ .main := by
      rw [chooseBestBaseAux]
      by_cases h1 : betterDist (v.distances .main) (v.distances .release) = true
      · rw [if_pos h1]
        rw [chooseBestBaseAux]
        by_cases h2 : betterDist (v.distances .release) (v.distances .develop) = true
        · rw [if_pos h2]; intro h; cases h
        · rw [if_neg h2]; intro h; cases h
      · rw [if_neg h1]
        rw [chooseBestBaseAux]
        have h2 : betterDist (v.distances .main) (v.distances .develop) = true := by
          rcases hm with hm | ⟨m, hm, hlt⟩
          · rw [hm, hdev]; rfl
          · rw [hm, hdev]
            simp only [betterDist, decide_eq_true_eq]
            exact hlt
        rw [if_pos h2]
        intro h; cases h
    rw [assertCorrectHotfixBranch]
    have hd : decide (chooseBestBase v.distances (hotfixPreference .main) =
        some (HotfixStage.branch .main)) = false := by
      simp only [decide_eq_false_iff_not]
      intro h
      rw [hotfixPreference, chooseBestBase] at h
      exact hdet (Option.some_inj.mp h)
    rw [hd]
    simp

/-- C2 witness: the pass characterization and the must-fail case applied at
concrete repository views. -/
theorem assertCorrectHotfixBranch_pass_iff_witness :
    assertCorrectHotfixBranch
      ⟨fun b => match b with | .develop => some 1 | .main => some 4 | .release => none,
       fun _ => none, fun _ => none⟩ HotfixStage.main = false ∧
    (assertCorrectHotfixBranch
      ⟨fun b => match b with | .develop => some 7 | .main => some 0 | .release => some 9,
       fun _ => none, fun _ => none⟩ HotfixStage.main = true ↔
      hotfixClaimOk
        ⟨fun b => match b with | .develop => some 7 | .main => some 0 | .release => some 9,
         fun _ => none, fun _ => none⟩ HotfixStage.main) := by
  constructor
  · exact assertCorrectHotfixBranch_pass_iff.2 _ 1 rfl (Or.inr ⟨4, rfl, by omega⟩)
  · exact assertCorrectHotfixBranch_pass_iff.1 _ HotfixStage.main

/-! ### Claim C3: assertOpenPRs -/

/-- The offender rule exactly as the claim words it: the branch chosen by
the closest-match rule over the base branch and the forbidden branches with
preference order base first is a forbidden branch other than the base with
finite distance. -/
def claimOffender (B : StageBranch) (F : List StageBranch) (pr : OpenPR) : Bool :=
  match chooseBestBase pr.distances (B :: F) with
  | some c => decide (c ∈ F) && decide (c ≠ B) && (pr.distances c).isSome
  | none => false

theorem jsDedup_eq_nil {α : Type} [DecidableEq α] (l : List α) :
    jsDedup l = [] ↔ l = [] := by
  cases l with
  | nil => simp [jsDedup, jsDedupAux]
  | cons x rest =>
    rw [jsDedup, jsDedupAux]
    simp

theorem openPROffender_eq_claimOffender (B : StageBranch) (F : List StageBranch) (pr : OpenPR) :
    openPROffender B (jsDedup (F.filter (fun b => decide (b ≠ B))))
      (fun br => if br ∈ jsDedup (B :: jsDedup (F.filter (fun b => decide (b ≠ B)))) then
        pr.distances br else none)
      = claimOffender B F pr := by
  set normF := jsDedup (F.filter (fun b => decide (b ≠ B))) with hnormF
  set toMeasure := jsDedup (B :: normF) with htm
  set masked := fun br => if br ∈ toMeasure then pr.distances br else none with hmasked
  have hmaskeq : ∀ y ∈ B :: normF, masked y = pr.distances y := by
    intro y hy
    rw [hmasked]
    simp only
    rw [if_pos ((mem_jsDedup (B :: normF) y).mpr hy)]
  have hchain : chooseBestBaseAux pr.distances B normF = chooseBestBaseAux pr.distances B F := by
    rw [hnormF, chooseBestBaseAux_jsDedup]
    exact chooseBestBaseAux_filter pr.distances B F B (betterDist_irrefl _)
  have hbase : chooseBestBase masked (B :: normF) = chooseBestBase pr.distances (B :: F) := by
    rw [chooseBestBase, chooseBestBase]
    rw [chooseBestBaseAux_congr masked pr.distances normF B hmaskeq]
    rw [hchain]
  rw [openPROffender, claimOffender, hbase]
  cases hc : chooseBestBase pr.distances (B :: F) with
  | none => rfl
  | some c =>
    have hcmem : c ∈ B :: F := by
      rw [chooseBestBase] at hc
      exact Option.some_inj.mp hc ▸ chooseBestBaseAux_mem pr.distances F B
    have hcmem' : c ∈ B :: normF := by
      rcases List.mem_cons.mp hcmem with h | h
      · exact h ▸ List.mem_cons_self _ _
      · by_cases hcB : c = B
        · exact hcB ▸ List.mem_cons_self _ _
        · apply List.mem_cons_of_mem
          rw [hnormF, mem_jsDedup, List.mem_filter]
          exact ⟨h, by simpa using hcB⟩
    have hmc : masked c = pr.distances c := hmaskeq c hcmem'
    show (decide (c ≠ B) && decide (c ∈ normF) && (masked c).isSome)
      = (decide (c ∈ F) && decide (c ≠ B) && (pr.distances c).isSome)
    rw [hmc]
    have hmemiff : c ∈ normF ↔ (c ∈ F ∧ c ≠ B) := by
      rw [hnormF, mem_jsDedup, List.mem_filter]
      simp
    by_cases hcB : c = B
    · have h1 : decide (c ≠ B) = false := by simp [hcB]
      rw [h1]
      simp
    · have h1 : decide (c ≠ B) = true := by simpa using hcB
      rw [h1]
      by_cases hcF : c ∈ F
      · have h2 : decide (c ∈ normF) = true := by
          simp only [decide_eq_true_eq]
          exact hmemiff.mpr ⟨hcF, hcB⟩
        have h3 : decide (c ∈ F) = true := by simpa using hcF
        rw [h2, h3]
      · have h2 : decide (c ∈ normF) = false := by
          simp only [decide_eq_false_iff_not]
          intro h
          exact hcF (hmemiff.mp h).1
        have h3 : decide (c ∈ F) = false := by simpa using hcF
        rw [h2, h3]
        simp

/-- C3: a non-draft PR is an offender exactly by the claim rule, and
assertOpenPRs writes the summary and throws a BlockingHotfixPRError whose
message carries the offender count precisely when at least one non-draft
offender exists; an empty draft-filtered candidate set or the absence of
offenders gives a silent success. -/
theorem assertOpenPRs_offenders_spec :
    ∀ (B : StageBranch) (F : List StageBranch) (title : String) (emsg : Nat → String)
      (prs : List OpenPR),
      (∀ pr : OpenPR,
        openPROffender B (jsDedup (F.filter (fun b => decide (b ≠ B))))
          (fun br => if br ∈ jsDedup (B :: jsDedup (F.filter (fun b => decide (b ≠ B)))) then
            pr.distances br else none)
          = claimOffender B F pr) ∧
      assertOpenPRs prs false ⟨B, F, title, emsg⟩ =
        ⟨decide (0 < (prs.filter (fun pr => !pr.draft && claimOffender B F pr)).length),
         if 0 < (prs.filter (fun pr => !pr.draft && claimOffender B F pr)).length then
           Except.error (JsError.blockingHotfixPR
             (emsg (prs.filter (fun pr => !pr.draft && claimOffender B F pr)).length))
         else Except.ok ()⟩ := by
  intro B F title emsg prs
  refine ⟨fun pr => openPROffender_eq_claimOffender B F pr, ?_⟩
  rw [assertOpenPRs]
  simp only
  by_cases hN : (jsDedup (F.filter (fun b => decide (b ≠ B)))).length = 0
  · rw [if_pos hN]
    have hFnil : F.filter (fun b => decide (b ≠ B)) = [] :=
      (jsDedup_eq_nil _).mp (List.length_eq_zero.mp hN)
    have hall : ∀ x ∈ F, x = B := by
      intro x hx
      have := List.filter_eq_nil.mp hFnil x hx
      simpa using this
    have hoff : ∀ pr : OpenPR, claimOffender B F pr = false := by
      intro pr
      rw [claimOffender]
      cases hc : chooseBestBase pr.distances (B :: F) with
      | none => rfl
      | some c =>
        have hcmem : c ∈ B :: F := by
          rw [chooseBestBase] at hc
          exact Option.some_inj.mp hc ▸ chooseBestBaseAux_mem pr.distances F B
        have hcB : c = B := by
          rcases List.mem_cons.mp hcmem with h | h
          · exact h
          · exact hall c h
        have h1 : decide (c ≠ B) = false := by simp [hcB]
        show (decide (c ∈ F) && decide (c ≠ B) && (pr.distances c).isSome) = false
        rw [h1]
        simp
    have hk : (prs.filter (fun pr => !pr.draft && claimOffender B F pr)).length = 0 := by
      rw [List.length_eq_zero, List.filter_eq_nil]
      intro pr _
      rw [hoff pr]
      simp
    rw [hk]
    rfl
  · rw [if_neg hN]
    simp only [Bool.false_eq_true, if_false]
    have hfeq : prs.filter (fun pr => !pr.draft && claimOffender B F pr) =
        (prs.filter (fun p => !p.draft)).filter (fun pr => claimOffender B F pr) := by
      rw [List.filter_filter]
      apply List.filter_congr
      intro pr _
      rw [Bool.and_comm]
    by_cases hC : (prs.filter (fun p => !p.draft)).length = 0
    · rw [if_pos hC]
      have : prs.filter (fun p => !p.draft) = [] := List.length_eq_zero.mp hC
      rw [hfeq, this]
      rfl
    · rw [if_neg hC]
      have hoffeq : (prs.filter (fun p => !p.draft)).filter
          (fun pr => openPROffender B (jsDedup (F.filter (fun b => decide (b ≠ B))))
            (fun br => if br ∈ jsDedup (B :: jsDedup (F.filter (fun b => decide (b ≠ B)))) then
              pr.distances br else none)) =
          (prs.filter (fun p => !p.draft)).filter (fun pr => claimOffender B F pr) := by
        apply List.filter_congr
        intro pr _
        exact openPROffender_eq_claimOffender B F pr
      rw [hoffeq, ← hfeq]
      by_cases hk : 0 < (prs.filter (fun pr => !pr.draft && claimOffender B F pr)).length
      · rw [if_pos hk, if_pos hk]
        have : decide (0 < (prs.filter (fun pr => !pr.draft && claimOffender B F pr)).length)
            = true := by simpa using hk
        rw [this]
      · rw [if_neg hk, if_neg hk]
        have : decide (0 < (prs.filter (fun pr => !pr.draft && claimOffender B F pr)).length)
            = false := by simpa using hk
        rw [this]

/-! ### Claims C9 and C1: compareVersions -/

theorem simplifyVersion_none (s : String) (h : parseSimpleVersion s.toList = none) :
    simplifyVersion s = .error ("Invalid version format: " ++ s) := by
  rw [simplifyVersion, h]

theorem simplifyVersion_some (s : String)
    (q : List Char × List Char × Option (List Char) × Option (List Char))
    (h : parseSimpleVersion s.toList = some q) :
    ∃ k, simplifyVersion s = .ok k := by
  obtain ⟨mj, mn, pt, pre⟩ := q
  rw [simplifyVersion, h]
  exact ⟨_, rfl⟩

theorem compareVersions_err_right (a b : String) (m : String)
    (h : simplifyVersion b = .error m) : compareVersions a b = .error m := by
  rw [compareVersions, h]

theorem compareVersions_err_left (a b : String) (kb : JsNumR) (m : String)
    (hb : simplifyVersion b = .ok kb) (ha : simplifyVersion a = .error m) :
    compareVersions a b = .error m := by
  rw [compareVersions, hb, ha]

theorem compareVersions_ok_of (a b : String) (ka kb : JsNumR)
    (ha : simplifyVersion a = .ok ka) (hb : simplifyVersion b = .ok kb) :
    compareVersions a b = .ok (jsSub kb ka) := by
  rw [compareVersions, hb, ha]

theorem dblOverflow_pos : 0 < dblOverflow := by
  have h : (2 : Nat) ^ 970 < 2 ^ 1024 :=
    Nat.pow_lt_pow_right (by norm_num) (by norm_num)
  rw [dblOverflow]
  omega

theorem dblOverflowQ_pos : 0 < (dblOverflow : ℚ) := by
  exact_mod_cast dblOverflow_pos

theorem jrOfQ_fin (q x : ℚ) (h : jrOfQ q = .fin x) :
    x = q ∧ -(dblOverflow : ℚ) < q ∧ q < (dblOverflow : ℚ) := by
  rw [jrOfQ] at h
  split_ifs at h with h1 h2
  exact ⟨(JsNumR.fin.inj h).symm, by linarith [not_le.mp h2], not_le.mp h1⟩

theorem jrOfQ_eq_fin (q : ℚ) (h1 : -(dblOverflow : ℚ) < q)
    (h2 : q < (dblOverflow : ℚ)) : jrOfQ q = .fin q := by
  rw [jrOfQ, if_neg (not_le.mpr h2), if_neg (not_le.mpr h1)]

theorem ratOfDenOne (a : ℚ) (ha : a.den = 1) : (a.num : ℚ) = a := by
  have h := Rat.num_div_den a
  rw [ha] at h
  simpa using h

theorem jsSubQ_eq (a b : ℚ) : jsSubQ a b = a - b := by
  rw [jsSubQ]
  split_ifs with h
  · rw [Int.cast_sub, ratOfDenOne a h.1, ratOfDenOne b h.2]
  · rfl

theorem jsSub_fin (a b : ℚ) : jsSub (.fin a) (.fin b) = jrOfQ (a - b) := by
  rw [show jsSub (.fin a) (.fin b) = jrOfQ (jsSubQ a b) from rfl, jsSubQ_eq]

set_option maxRecDepth 40000 in
theorem decValue_fin (M : Nat) (e : Int) (q : ℚ) (h : decValue M e = .fin q) :
    0 ≤ q ∧ q < (dblOverflow : ℚ) := by
  rw [decValue] at h
  split_ifs at h with h1 h2 h3 h4
  · obtain rfl : (0 : ℚ) = q := JsNumR.fin.inj h
    exact ⟨le_refl 0, dblOverflowQ_pos⟩
  · obtain rfl : (0 : ℚ) = q := JsNumR.fin.inj h
    exact ⟨le_refl 0, dblOverflowQ_pos⟩
  · obtain ⟨hq, hgt, hlt⟩ := jrOfQ_fin _ _ h
    exact ⟨hq ▸ (by positivity), hq ▸ hlt⟩
  · obtain ⟨hq, hgt, hlt⟩ := jrOfQ_fin _ _ h
    exact ⟨hq ▸ (by positivity), hq ▸ hlt⟩

theorem decExpDigits_fin (M : Nat) (neg : Bool) (ds : List Char) (fracLen : Nat)
    (q : ℚ) (h : decExpDigits M neg ds fracLen = .fin q) :
    0 ≤ q ∧ q < (dblOverflow : ℚ) := by
  rw [decExpDigits] at h
  split_ifs at h
  · exact decValue_fin _ _ _ h
  · exact decValue_fin _ _ _ h

theorem decExpTail_fin (M fracLen : Nat) (l : List Char) (q : ℚ)
    (h : decExpTail M fracLen l = .fin q) : 0 ≤ q ∧ q < (dblOverflow : ℚ) := by
  rw [decExpTail] at h
  split_ifs at h
  · exact decValue_fin _ _ _ h
  · exact decExpDigits_fin _ _ _ _ _ h
  · exact decExpDigits_fin _ _ _ _ _ h
  · exact decExpDigits_fin _ _ _ _ _ h

theorem decBody_fin (l : List Char) (q : ℚ) (h : decBody l = .fin q) :
    0 ≤ q ∧ q < (dblOverflow : ℚ) := by
  rw [decBody] at h
  split_ifs at h
  · exact decExpTail_fin _ _ _ _ h
  · exact decExpTail_fin _ _ _ _ h

set_option maxRecDepth 40000 in
theorem radixQ_fin (base : Nat) (f : Char → Option Nat) (l : List Char) (q : ℚ)
    (h : radixQ base f l = .fin q) : 0 ≤ q ∧ q < (dblOverflow : ℚ) := by
  rw [radixQ] at h
  split_ifs at h
  revert h
  cases radixVal base f l with
  | none =>
    intro h
    have h2 : JsNumR.nan = JsNumR.fin q := h
    cases h2
  | some v =>
    intro h
    have h2 : jrOfQ (v : ℚ) = JsNumR.fin q := h
    obtain ⟨hq, hgt, hlt⟩ := jrOfQ_fin _ _ h2
    exact ⟨hq ▸ (by positivity), hq ▸ hlt⟩

theorem jsKeyNumUnsigned_fin (l : List Char) (q : ℚ)
    (h : jsKeyNumUnsigned l = .fin q) : 0 ≤ q ∧ q < (dblOverflow : ℚ) := by
  rw [jsKeyNumUnsigned] at h
  split_ifs at h
  · exact radixQ_fin _ _ _ _ h
  · exact radixQ_fin _ _ _ _ h
  · exact radixQ_fin _ _ _ _ h
  · exact decBody_fin _ _ h

theorem jsKeyNum_not_sign (d : Char) (t : List Char)
    (h1 : d ≠ '+') (h2 : d ≠ '-') :
    jsKeyNum (d :: t) = jsKeyNumUnsigned (d :: t) := by
  rw [jsKeyNum]
  rw [if_neg (by simp), if_neg (by simp [h1]), if_neg (by simp [h2])]

theorem renderNat_head (n : Nat) :
    ∃ d t, renderNat n = d :: t ∧ d.isDigit = true := by
  rw [renderNat]
  split_ifs with h
  · cases hn : natRepr n with
    | nil => exact absurd hn (natRepr_ne_nil n)
    | cons d t =>
      exact ⟨d, t, rfl, natRepr_digits n d (hn ▸ List.mem_cons_self d t)⟩
  · rw [renderBigNat]
    cases hn : natRepr n with
    | nil => exact absurd hn (natRepr_ne_nil n)
    | cons d t =>
      exact ⟨d, _, rfl, natRepr_digits n d (hn ▸ List.mem_cons_self d t)⟩

/-- A finite value of simplifyKey is a non-negative rational below the
double overflow threshold: the key string starts with a digit of the major
component, so the unsigned literal parser produces it, and every finite
value that parser yields lies in that range. -/
theorem simplifyKey_fin (mj mn : List Char) (pt pre : Option (List Char)) (q : ℚ)
    (h : simplifyKey mj mn pt pre = .fin q) : 0 ≤ q ∧ q < (dblOverflow : ℚ) := by
  rw [simplifyKey.eq_def] at h
  obtain ⟨d, t2, hd, hdig⟩ := renderNat_head (digitsVal mj)
  have hne1 : d ≠ '+' := fun e => by rw [e] at hdig; exact absurd hdig (by decide)
  have hne2 : d ≠ '-' := fun e => by rw [e] at hdig; exact absurd hdig (by decide)
  rw [hd, List.cons_append, List.cons_append, List.cons_append,
    jsKeyNum_not_sign d _ hne1 hne2] at h
  exact jsKeyNumUnsigned_fin _ _ h

/-- A finite sort key of simplifyVersion inherits the simplifyKey range. -/
theorem simplifyVersion_fin (s : String) (q : ℚ)
    (h : simplifyVersion s = .ok (.fin q)) : 0 ≤ q ∧ q < (dblOverflow : ℚ) := by
  rw [simplifyVersion] at h
  cases hp : parseSimpleVersion s.toList with
  | none => rw [hp] at h; cases h
  | some t =>
    obtain ⟨mj, mn, pt, pre⟩ := t
    rw [hp] at h
    have h2 : Except.ok (simplifyKey mj mn pt pre) =
        (Except.ok (JsNumR.fin q) : Except String JsNumR) := h
    exact simplifyKey_fin mj mn pt pre q (Except.ok.inj h2)

/-- C9: compareVersions throws the Invalid-version-format error (naming the
offending argument, the second argument checked first) whenever either
argument fails the version pattern v digits dot digits, optional dot digits,
optional hyphenated word-or-dot suffix; it returns a number exactly when
both arguments match the pattern. -/
theorem compareVersions_rejects_malformed :
    ∀ a b : String,
      (parseSimpleVersion b.toList = none →
        compareVersions a b = Except.error ("Invalid version format: " ++ b)) ∧
      (parseSimpleVersion b.toList ≠ none → parseSimpleVersion a.toList = none →
        compareVersions a b = Except.error ("Invalid version format: " ++ a)) ∧
      ((∃ n, compareVersions a b = Except.ok n) ↔
        (parseSimpleVersion a.toList).isSome ∧ (parseSimpleVersion b.toList).isSome) := by
  intro a b
  refine ⟨?_, ?_, ?_⟩
  · intro hbn
    exact compareVersions_err_right a b _ (simplifyVersion_none b hbn)
  · intro hbn han
    cases hb : parseSimpleVersion b.toList with
    | none => exact absurd hb hbn
    | some q =>
      obtain ⟨kb, hkb⟩ := simplifyVersion_some b q hb
      exact compareVersions_err_left a b kb _ hkb (simplifyVersion_none a han)
  · constructor
    · rintro ⟨n, hn⟩
      cases hb : parseSimpleVersion b.toList with
      | none =>
        rw [compareVersions_err_right a b _ (simplifyVersion_none b hb)] at hn
        cases hn
      | some qb =>
        obtain ⟨kb, hkb⟩ := simplifyVersion_some b qb hb
        cases ha : parseSimpleVersion a.toList with
        | none =>
          rw [compareVersions_err_left a b kb _ hkb (simplifyVersion_none a ha)] at hn
          cases hn
        | some qa =>
          constructor <;> simp [ha, hb]
    · rintro ⟨ha, hb⟩
      cases hpa : parseSimpleVersion a.toList with
      | none => rw [hpa] at ha; cases ha
      | some qa =>
        cases hpb : parseSimpleVersion b.toList with
        | none => rw [hpb] at hb; cases hb
        | some qb =>
          obtain ⟨ka, hka⟩ := simplifyVersion_some a qa hpa
          obtain ⟨kb, hkb⟩ := simplifyVersion_some b qb hpb
          exact ⟨_, compareVersions_ok_of a b ka kb hka hkb⟩

/-- C9 witness: a string lacking the leading v and a string lacking the second
numeric component are both rejected, and two well-formed versions compare to
a number, via the theorem at concrete inputs. -/
theorem compareVersions_rejects_malformed_witness :
    compareVersions "v1.2" "2025.1" = Except.error ("Invalid version format: " ++ "2025.1") ∧
    compareVersions "v2025" "v1.2" = Except.error ("Invalid version format: " ++ "v2025") ∧
    (∃ n, compareVersions "v2025.1" "v2025.2" = Except.ok n) := by
  refine ⟨?_, ?_, ?_⟩
  · exact (compareVersions_rejects_malformed "v1.2" "2025.1").1 (by rfl)
  · exact (compareVersions_rejects_malformed "v2025" "v1.2").2.1 (by decide) (by rfl)
  · exact (compareVersions_rejects_malformed "v2025.1" "v2025.2").2.2.mpr ⟨by rfl, by rfl⟩

/-- C1 (amended): on every version string whose sort key evaluates to a
finite number, compareVersions is reflexive (the self-comparison is 0),
antisymmetric (the comparisons of a swapped pair are negations) and
transitive (two positive comparisons chain to a positive one), i.e. a total
preorder suitable for sorting; it is not a strict total order, and the
counterexample shows both that two distinct tag-grammar versions compare
equal and that reflexivity itself fails on an accepted string whose
prerelease weight coerces to Infinity (a NaN key). -/
theorem compareVersions_total_preorder :
    ∀ (a b c : String) (ka kb kc : ℚ),
      simplifyVersion a = Except.ok (JsNumR.fin ka) →
      simplifyVersion b = Except.ok (JsNumR.fin kb) →
      simplifyVersion c = Except.ok (JsNumR.fin kc) →
      compareVersions a a = Except.ok (JsNumR.fin 0) ∧
      compareVersions a b = Except.ok (JsNumR.fin (kb - ka)) ∧
      compareVersions b a = Except.ok (JsNumR.fin (ka - kb)) ∧
      (∀ x y : ℚ, compareVersions a b = Except.ok (JsNumR.fin x) →
        compareVersions b a = Except.ok (JsNumR.fin y) → x = -y) ∧
      (∀ x y : ℚ, compareVersions a b = Except.ok (JsNumR.fin x) →
        compareVersions b c = Except.ok (JsNumR.fin y) →
        0 < x → 0 < y →
        ∃ z, compareVersions a c = Except.ok (JsNumR.fin z) ∧ 0 < z) := by
  intro a b c ka kb kc ha hb hc
  have key : ∀ (u v : String) (ku kv : ℚ),
      simplifyVersion u = Except.ok (JsNumR.fin ku) →
      simplifyVersion v = Except.ok (JsNumR.fin kv) →
      compareVersions u v = Except.ok (JsNumR.fin (kv - ku)) := by
    intro u v ku kv hu hv
    obtain ⟨hu0, huT⟩ := simplifyVersion_fin u ku hu
    obtain ⟨hv0, hvT⟩ := simplifyVersion_fin v kv hv
    rw [compareVersions_ok_of u v _ _ hu hv, jsSub_fin,
      jrOfQ_eq_fin _ (by linarith) (by linarith)]
  refine ⟨?_, key a b ka kb ha hb, key b a kb ka hb ha, ?_, ?_⟩
  · have h0 := key a a ka ka ha ha
    simpa using h0
  · intro x y hx hy
    rw [key a b ka kb ha hb] at hx
    rw [key b a kb ka hb ha] at hy
    have hx2 := JsNumR.fin.inj (Except.ok.inj hx)
    have hy2 := JsNumR.fin.inj (Except.ok.inj hy)
    linarith
  · intro x y hx hy hx0 hy0
    rw [key a b ka kb ha hb] at hx
    rw [key b c kb kc hb hc] at hy
    have hx2 := JsNumR.fin.inj (Except.ok.inj hx)
    have hy2 := JsNumR.fin.inj (Except.ok.inj hy)
    refine ⟨kc - ka, key a c ka kc ha hc, ?_⟩
    linarith

set_option maxRecDepth 40000 in
/-- C1 witness: the preorder properties at three concrete versions with
finite sort keys. -/
theorem compareVersions_total_preorder_witness :
    compareVersions "v2025.1" "v2025.1" = Except.ok (JsNumR.fin 0) ∧
    compareVersions "v2025.1" "v2025.2" =
      Except.ok (JsNumR.fin ((20251021008000 : ℚ) - 20251011008000)) := by
  have h := compareVersions_total_preorder "v2025.1" "v2025.2" "v2025.3"
    20251011008000 20251021008000 20251031008000 (by decide) (by decide) (by decide)
  exact ⟨h.1, h.2.1⟩

/-! ### Claim C8: ensureFreshWorkflowRun -/

theorem string_data_append (a b : String) : (a ++ b).data = a.data ++ b.data := by
  cases a
  cases b
  rfl

theorem rerunMessage_ne_safeguard (lbl : String) :
    rerunMessage lbl ≠
      "Unable to run stage safeguards: repository checkout is missing and no git URL was provided." := by
  intro h
  have h2 : (rerunMessage lbl).data.head? =
      ("Unable to run stage safeguards: repository checkout is missing and no git URL was provided." : String).data.head? := by
    rw [h]
  rw [rerunMessage] at h2
  simp only [string_data_append, List.append_assoc] at h2
  simp only [List.cons_append, List.head?_cons] at h2
  exact absurd h2 (by decide)

theorem assertOpenPRs_result_shape (prs : List OpenPR) (incl : Bool) (opts : AssertOpenPROptions) :
    (assertOpenPRs prs incl opts).result = Except.ok () ∨
      ∃ m, (assertOpenPRs prs incl opts).result = Except.error (.blockingHotfixPR m) := by
  rw [assertOpenPRs]
  simp only
  split_ifs <;> first | exact Or.inl rfl | exact Or.inr ⟨_, rfl⟩

theorem runStageChecks_no_plain (checks : List AssertOpenPROptions)
    (prsByBase : StageBranch → List OpenPR) (m : String) :
    runStageChecks checks prsByBase ≠ Except.error (.plain m) := by
  induction checks with
  | nil => intro h; cases h
  | cons o rest ih =>
    intro h
    rw [runStageChecks] at h
    split at h
    · rename_i e heq
      rcases assertOpenPRs_result_shape (prsByBase o.baseBranch) false o with hr | ⟨mm, hr⟩
      · rw [hr] at heq
        cases heq
      · rw [hr] at heq
        have he : JsError.blockingHotfixPR mm = e := Except.error.inj heq
        have hem : e = JsError.plain m := Except.error.inj h
        rw [← he] at hem
        cases hem
    · exact ih h

theorem stageSafeguards_not_rerun (ns : Option String) (hc : Bool) (gu : Option String)
    (pb : StageBranch → List OpenPR) (lbl : String) :
    stageSafeguards ns hc gu pb ≠ Except.error (JsError.plain (rerunMessage lbl)) := by
  intro h
  unfold stageSafeguards at h
  split at h
  · cases h
  · split at h
    · cases h
    · split at h
      · exact rerunMessage_ne_safeguard lbl (JsError.plain.inj (Except.error.inj h)).symm
      · exact runStageChecks_no_plain _ pb _ h

/-- C8 (amended): ensureFreshWorkflowRun fails with the do-not-re-run message
exactly when the sentinel flag artifact is found among the current run
artifacts or, failing that, among the repository artifacts recorded for the
same run id; the message is stage-aware with a capitalized stage label that
defaults to Alpha for a missing or empty stage; the model is a pure function
of its inputs, so a second call with the same inputs fails identically.
(When no flag is found, the stage open-PR safeguards may still make the call
fail, with a different error.) -/
theorem ensureFreshWorkflowRun_rerun_guard_spec :
    (∀ inp : EnsureFreshInput,
      flagFound inp = true ↔
        ensureFreshWorkflowRun inp =
          Except.error (JsError.plain (rerunMessage (stageLabelOf (normalizedStageOf inp.stage))))) ∧
    stageLabelOf none = "Alpha" ∧ stageLabelOf (some "") = "Alpha" ∧
    stageLabelOf (normalizedStageOf (some " Beta ")) = "Beta" := by
  refine ⟨?_, rfl, rfl, rfl⟩
  intro inp
  constructor
  · intro hf
    rw [ensureFreshWorkflowRun, if_pos hf]
  · intro h
    by_contra hflag
    have hflag' : flagFound inp = false := by
      cases hff : flagFound inp
      · rfl
      · exact absurd hff hflag
    rw [ensureFreshWorkflowRun, hflag'] at h
    simp only [Bool.false_eq_true, if_false] at h
    exact stageSafeguards_not_rerun (normalizedStageOf inp.stage) inp.hasCheckout
      inp.gitRemoteUrl inp.prsByBase _ h

/-- C8 witness: the guard applied through the theorem at a concrete input
with the flag artifact present among the run artifacts. -/
theorem ensureFreshWorkflowRun_rerun_guard_spec_witness :
    ensureFreshWorkflowRun
      ⟨["release-startup-unmerged-pr-flag"], [], 7, some "beta", true, none, fun _ => []⟩ =
      Except.error (JsError.plain (rerunMessage (stageLabelOf (normalizedStageOf (some "beta"))))) := by
  exact (ensureFreshWorkflowRun_rerun_guard_spec.1
    ⟨["release-startup-unmerged-pr-flag"], [], 7, some "beta", true, none, fun _ => []⟩).mp
    (by rfl)

/-- A PR into develop whose head is closest to main. -/
def exOffenderPR : OpenPR :=
  ⟨1, "hotfix", "http://example.invalid/pr/1", false,
    fun b => match b with | .develop => some 5 | .main => some 1 | .release => none⟩

/-- A flag-free input for an alpha run with one offending open PR. -/
def exFreshInput : EnsureFreshInput :=
  ⟨[], [], 42, some "alpha", true, none,
    fun b => match b with | .develop => [exOffenderPR] | _ => []⟩

/-- C8 counterexample: no flag artifact exists, yet the call fails (from the
stage open-PR safeguard), so the claimed fails-iff-flag-found equivalence is
false as stated. -/
theorem ensureFreshWorkflowRun_fails_without_flag :
    flagFound exFreshInput = false ∧
      ensureFreshWorkflowRun exFreshInput ≠ Except.ok () := by
  constructor
  · rfl
  · intro h
    have he : ensureFreshWorkflowRun exFreshInput =
        Except.error (JsError.blockingHotfixPR (DEFAULT_ASSERT_OPEN_PR_OPTIONS.errorMessage 1)) := by
      rfl
    rw [he] at h
    cases h

/-! ### Canonical-version evaluation lemmas for versioning -/

theorem jsStrToNum_natRepr (n : Nat) : jsStrToNum (natRepr n) = some n := by
  rw [jsStrToNum, if_neg (natRepr_ne_nil n)]
  rw [if_pos (List.all_eq_true.mpr (natRepr_digits n))]
  rw [digitsVal_natRepr]

theorem not_mem_natRepr_of_not_digit (n : Nat) (c : Char) (h : c.isDigit = false) :
    c ∉ natRepr n := natRepr_not_mem n c h

theorem splitV (rest : List Char) (h : 'v' ∉ rest) :
    jsSplitChar 'v' ('v' :: rest) = [[], rest] := by
  rw [jsSplitChar]
  rw [jsSplitChar_not_mem 'v' rest h]
  simp

theorem split_two_pieces (a b : List Char) (ha : '.' ∉ a) (hb : '.' ∉ b) :
    jsSplitChar '.' (a ++ '.' :: b) = [a, b] := by
  rw [jsSplitChar_append '.' a b ha]
  rw [jsSplitChar_not_mem '.' b hb]

theorem split_three_pieces (a b c : List Char) (ha : '.' ∉ a) (hb : '.' ∉ b) (hc : '.' ∉ c) :
    jsSplitChar '.' (a ++ '.' :: (b ++ '.' :: c)) = [a, b, c] := by
  rw [jsSplitChar_append '.' a (b ++ '.' :: c) ha]
  rw [split_two_pieces b c hb hc]

/-- The optional patch segment of a canonical production tag. -/
def patchPart : Option Nat → List Char
  | none => []
  | some pp => '.' :: natRepr pp

/-- The char-list form of the canonical production tag v<y>.<r> or v<y>.<r>.<p>. -/
def prodList (y r : Nat) (p : Option Nat) : List Char :=
  'v' :: (natRepr y ++ '.' :: (natRepr r ++ patchPart p))

def mkProdStr (y r : Nat) (p : Option Nat) : String := String.mk (prodList y r p)

theorem v_not_mem_prodTail (PY PR : Nat) (pp : Option Nat) :
    'v' ∉ (natRepr PY ++ '.' :: (natRepr PR ++ patchPart pp)) := by
  intro hm
  rcases List.mem_append.mp hm with hm | hm
  · exact not_mem_natRepr_of_not_digit PY 'v' (by decide) hm
  · rcases List.mem_cons.mp hm with hm | hm
    · cases hm
    · rcases List.mem_append.mp hm with hm | hm
      · exact not_mem_natRepr_of_not_digit PR 'v' (by decide) hm
      · cases pp with
        | none => simp [patchPart] at hm
        | some p2 =>
          rw [patchPart] at hm
          rcases List.mem_cons.mp hm with hm | hm
          · cases hm
          · exact not_mem_natRepr_of_not_digit p2 'v' (by decide) hm

theorem split_prodTail (PY PR : Nat) (pp : Option Nat) :
    (jsSplitChar '.' (natRepr PY ++ '.' :: (natRepr PR ++ patchPart pp))).reverse =
      (match pp with
        | none => [natRepr PR, natRepr PY]
        | some p2 => [natRepr p2, natRepr PR, natRepr PY]) := by
  cases pp with
  | none =>
    rw [patchPart]
    simp only [List.append_nil]
    rw [split_two_pieces (natRepr PY) (natRepr PR)
      (not_mem_natRepr_of_not_digit PY '.' (by decide))
      (not_mem_natRepr_of_not_digit PR '.' (by decide))]
    rfl
  | some p2 =>
    rw [patchPart]
    rw [split_three_pieces (natRepr PY) (natRepr PR) (natRepr p2)
      (not_mem_natRepr_of_not_digit PY '.' (by decide))
      (not_mem_natRepr_of_not_digit PR '.' (by decide))
      (not_mem_natRepr_of_not_digit p2 '.' (by decide))]
    rfl

theorem workingVersion_canonical (PY PR CY : Nat) (pp : Option Nat) :
    workingVersion false (some (prodList PY PR pp)) (natRepr CY) =
      'v' :: natRepr CY ++ '.' :: natRepr (if PY = CY then PR + 1 else 1) := by
  rw [workingVersion, prodList]
  rw [show (some ('v' :: (natRepr PY ++ '.' :: (natRepr PR ++ patchPart pp)))).bind (fun s =>
      ((popBack (jsSplitChar 'v' s)).1).map (fun t => (jsSplitChar '.' t).reverse)) =
    ((popBack (jsSplitChar 'v' ('v' :: (natRepr PY ++ '.' :: (natRepr PR ++ patchPart pp))))).1).map
      (fun t => (jsSplitChar '.' t).reverse) from rfl]
  rw [splitV _ (v_not_mem_prodTail PY PR pp)]
  rw [show (popBack ([[], (natRepr PY ++ '.' :: (natRepr PR ++ patchPart pp))] : List (List Char))).1 =
    some (natRepr PY ++ '.' :: (natRepr PR ++ patchPart pp)) from rfl]
  rw [Option.map_some']
  rw [split_prodTail PY PR pp]
  cases pp with
  | none =>
    simp only [popBack, List.length_cons, List.length_nil]
    rw [if_pos (by omega)]
    simp only [jsStrToNum_natRepr, Option.some_bind]
    by_cases hy : PY = CY
    · have hdec : decide ((some (natRepr PY) : Option (List Char)) ≠ some (natRepr CY)) = false := by
        simp [hy]
      rw [hdec]
      simp only [Bool.false_eq_true, if_false, if_pos hy]
      simp [renderOpt, jsNumToStr, jsAdd1]
    · have hdec : decide ((some (natRepr PY) : Option (List Char)) ≠ some (natRepr CY)) = true := by
        simp only [decide_eq_true_eq, ne_eq, Option.some_inj]
        intro hc
        exact hy (natRepr_injective hc)
      rw [hdec]
      simp only [if_true, if_neg hy]
      simp [renderOpt, jsNumToStr, jsAdd1]
  | some p2 =>
    simp only [popBack, List.length_cons, List.length_nil]
    rw [if_pos (by omega)]
    simp only [jsStrToNum_natRepr, Option.some_bind]
    by_cases hy : PY = CY
    · have hdec : decide ((some (natRepr PY) : Option (List Char)) ≠ some (natRepr CY)) = false := by
        simp [hy]
      rw [hdec]
      simp only [Bool.false_eq_true, if_false, if_pos hy]
      simp [renderOpt, jsNumToStr, jsAdd1]
    · have hdec : decide ((some (natRepr PY) : Option (List Char)) ≠ some (natRepr CY)) = true := by
        simp only [decide_eq_true_eq, ne_eq, Option.some_inj]
        intro hc
        exact hy (natRepr_injective hc)
      rw [hdec]
      simp only [if_true, if_neg hy]
      simp [renderOpt, jsNumToStr, jsAdd1]

theorem workingVersion_none (cy : List Char) :
    workingVersion false none cy = 'v' :: cy ++ '.' :: '1' :: [] := rfl

def alphaMark : List Char := ['-', 'a', 'l', 'p', 'h', 'a']

/-- The char-list form of the canonical alpha tag v<y>.<r>-alpha.<i>. -/
def alphaList (y r i : Nat) : List Char :=
  'v' :: (natRepr y ++ '.' :: ((natRepr r ++ alphaMark) ++ '.' :: natRepr i))

def mkAlphaStr (y r i : Nat) : String := String.mk (alphaList y r i)

theorem append_dot_inj (a : List Char) : ∀ (b x y : List Char), '.' ∉ a → '.' ∉ b →
    a ++ '.' :: x = b ++ '.' :: y → a = b ∧ x = y := by
  induction a with
  | nil =>
    intro b x y _ hb h
    cases b with
    | nil =>
      simp only [List.nil_append] at h
      exact ⟨rfl, List.cons.inj h |>.2⟩
    | cons d b' =>
      simp only [List.nil_append, List.cons_append] at h
      obtain ⟨hd, _⟩ := List.cons.inj h
      exact absurd (hd ▸ List.mem_cons_self d b') hb
  | cons c a' ih =>
    intro b x y ha hb h
    cases b with
    | nil =>
      simp only [List.cons_append, List.nil_append] at h
      obtain ⟨hd, _⟩ := List.cons.inj h
      exact absurd (hd ▸ List.mem_cons_self c a') ha
    | cons d b' =>
      simp only [List.cons_append] at h
      obtain ⟨hd, htail⟩ := List.cons.inj h
      have := ih b' x y (fun hm => ha (List.mem_cons_of_mem c hm))
        (fun hm => hb (List.mem_cons_of_mem d hm)) htail
      exact ⟨by rw [hd, this.1], this.2⟩

theorem v_not_mem_alphaTail (Y R I : Nat) :
    'v' ∉ (natRepr Y ++ '.' :: ((natRepr R ++ alphaMark) ++ '.' :: natRepr I)) := by
  intro hm
  rcases List.mem_append.mp hm with hm | hm
  · exact not_mem_natRepr_of_not_digit Y 'v' (by decide) hm
  · rcases List.mem_cons.mp hm with hm | hm
    · cases hm
    · rcases List.mem_append.mp hm with hm | hm
      · rcases List.mem_append.mp hm with hm | hm
        · exact not_mem_natRepr_of_not_digit R 'v' (by decide) hm
        · rw [alphaMark] at hm
          simp at hm
      · rcases List.mem_cons.mp hm with hm | hm
        · cases hm
        · exact not_mem_natRepr_of_not_digit I 'v' (by decide) hm

theorem dot_not_mem_revMark (R : Nat) : '.' ∉ (natRepr R ++ alphaMark) := by
  intro hm
  rcases List.mem_append.mp hm with hm | hm
  · exact not_mem_natRepr_of_not_digit R '.' (by decide) hm
  · rw [alphaMark] at hm
    simp at hm

theorem v_not_mem_baseTail (CY WR : Nat) :
    'v' ∉ (natRepr CY ++ '.' :: natRepr WR) := by
  intro hm
  rcases List.mem_append.mp hm with hm | hm
  · exact not_mem_natRepr_of_not_digit CY 'v' (by decide) hm
  · rcases List.mem_cons.mp hm with hm | hm
    · cases hm
    · exact not_mem_natRepr_of_not_digit WR 'v' (by decide) hm

theorem splitSub_revMark (R : Nat) :
    jsSplitSub '-' ['a', 'l', 'p', 'h', 'a'] (natRepr R ++ alphaMark) =
      [natRepr R, []] := by
  have h : natRepr R ++ alphaMark = natRepr R ++ ('-' :: ['a', 'l', 'p', 'h', 'a']) ++ [] := by
    rw [List.append_nil]
    rfl
  rw [h]
  rw [jsSplitSub_append '-' ['a', 'l', 'p', 'h', 'a'] (natRepr R) []
    (fun c hc => isDigit_ne c '-' (natRepr_digits R c hc) (by decide))]
  rfl

theorem alphaDecorate_canonical (Y R I CY WR : Nat) :
    alphaDecorate (some (alphaList Y R I)) ('v' :: (natRepr CY ++ '.' :: natRepr WR)) =
      (if Y = CY ∧ R = WR then alphaList Y R (I + 1) else alphaList CY WR 1) := by
  have hsplitA : jsSplitChar 'v' (alphaList Y R I) =
      [[], natRepr Y ++ '.' :: ((natRepr R ++ alphaMark) ++ '.' :: natRepr I)] := by
    rw [alphaList]
    exact splitV _ (v_not_mem_alphaTail Y R I)
  have hsplitA2 : jsSplitChar '.' (natRepr Y ++ '.' :: ((natRepr R ++ alphaMark) ++ '.' :: natRepr I)) =
      [natRepr Y, natRepr R ++ alphaMark, natRepr I] :=
    split_three_pieces _ _ _
      (not_mem_natRepr_of_not_digit Y '.' (by decide))
      (dot_not_mem_revMark R)
      (not_mem_natRepr_of_not_digit I '.' (by decide))
  have hsplitB : jsSplitChar 'v' ('v' :: (natRepr CY ++ '.' :: natRepr WR)) =
      [[], natRepr CY ++ '.' :: natRepr WR] := splitV _ (v_not_mem_baseTail CY WR)
  have hsplitB2 : jsSplitChar '.' (natRepr CY ++ '.' :: natRepr WR) = [natRepr CY, natRepr WR] :=
    split_two_pieces _ _ (not_mem_natRepr_of_not_digit CY '.' (by decide))
      (not_mem_natRepr_of_not_digit WR '.' (by decide))
  simp only [alphaDecorate, Option.some_bind, hsplitA, hsplitA2, hsplitB, hsplitB2,
    popBack, Option.map_some', Option.getD_some, splitSub_revMark, renderOpt,
    List.reverse_cons, List.reverse_nil, List.nil_append, List.cons_append,
    List.append_nil, jsStrToNum_natRepr, jsAdd1, jsNumToStr]
  have hiff : (('v' :: (natRepr CY ++ '.' :: natRepr WR) : List Char) =
      'v' :: (natRepr Y ++ '.' :: natRepr R)) ↔ (Y = CY ∧ R = WR) := by
    constructor
    · intro h
      have h2 := (List.cons.inj h).2
      have h3 := append_dot_inj (natRepr CY) (natRepr Y) (natRepr WR) (natRepr R)
        (not_mem_natRepr_of_not_digit CY '.' (by decide))
        (not_mem_natRepr_of_not_digit Y '.' (by decide)) h2
      exact ⟨(natRepr_injective h3.1).symm, (natRepr_injective h3.2).symm⟩
    · intro h
      rw [h.1, h.2]
  by_cases hc : Y = CY ∧ R = WR
  · rw [if_pos (hiff.mpr hc), if_pos hc]
    rw [alphaList, alphaMark]
    simp [List.append_assoc]
  · rw [if_neg (fun h => hc (hiff.mp h)), if_neg hc]
    rw [alphaList, alphaMark]
    have h1 : natRepr 1 = ['1'] := rfl
    rw [h1]
    simp [List.append_assoc]

theorem alphaDecorate_none (CY WR : Nat) :
    alphaDecorate none ('v' :: (natRepr CY ++ '.' :: natRepr WR)) = alphaList CY WR 1 := by
  have hsplitB : jsSplitChar 'v' ('v' :: (natRepr CY ++ '.' :: natRepr WR)) =
      [[], natRepr CY ++ '.' :: natRepr WR] := splitV _ (v_not_mem_baseTail CY WR)
  have hsplitB2 : jsSplitChar '.' (natRepr CY ++ '.' :: natRepr WR) = [natRepr CY, natRepr WR] :=
    split_two_pieces _ _ (not_mem_natRepr_of_not_digit CY '.' (by decide))
      (not_mem_natRepr_of_not_digit WR '.' (by decide))
  simp only [alphaDecorate, Option.none_bind, hsplitB, hsplitB2, popBack,
    Option.map_some', Option.getD_some, Option.getD_none, renderOpt,
    List.reverse_cons, List.reverse_nil, List.nil_append, List.cons_append,
    List.append_nil, jsStrToNum, jsAdd1, jsNumToStr]
  have hne : ¬ (('v' :: (natRepr CY ++ '.' :: natRepr WR) : List Char) = ['v', '.']) := by
    intro h
    have h2 := (List.cons.inj h).2
    cases hcy : natRepr CY with
    | nil => exact natRepr_ne_nil CY hcy
    | cons c t =>
      rw [hcy, List.cons_append] at h2
      have hc1 := (List.cons.inj h2).1
      have hd := natRepr_digits CY c (hcy ▸ List.mem_cons_self c t)
      rw [hc1] at hd
      exact absurd hd (by decide)
  rw [if_neg hne]
  rw [alphaList, alphaMark]
  have h1 : natRepr 1 = ['1'] := rfl
  rw [h1]
  simp [List.append_assoc]

theorem versioning_alpha_eq (reference : String) (prev prod lsv : Option String) (cy : String) :
    versioning "alpha" reference false prev prod lsv cy =
      Except.ok (String.mk (alphaDecorate (prev.map String.toList)
        (workingVersion false (prod.map String.toList) cy.toList))) := by
  rw [versioning]
  rw [if_neg (by simp : ¬ (false = true ∧ ("alpha" : String) = "beta"))]
  rw [if_pos (⟨rfl, by decide⟩ : false = false ∧ ("alpha" : String) ≠ "production")]
  rw [if_neg (by decide : ¬ ("alpha" : String) = "beta")]

theorem versioning_alpha_canonical (CY PY PR Y R I : Nat) (pp : Option Nat)
    (reference : String) (lsv : Option String) :
    versioning "alpha" reference false (some (mkAlphaStr Y R I))
        (some (mkProdStr PY PR pp)) lsv (natStr CY) =
      Except.ok (if Y = CY ∧ R = (if PY = CY then PR + 1 else 1)
        then mkAlphaStr Y R (I + 1)
        else mkAlphaStr CY (if PY = CY then PR + 1 else 1) 1) := by
  rw [versioning_alpha_eq]
  rw [show (some (mkAlphaStr Y R I)).map String.toList = some (alphaList Y R I) from rfl]
  rw [show (some (mkProdStr PY PR pp)).map String.toList = some (prodList PY PR pp) from rfl]
  rw [show (natStr CY).toList = natRepr CY from rfl]
  rw [workingVersion_canonical]
  rw [show ('v' :: natRepr CY ++ '.' :: natRepr (if PY = CY then PR + 1 else 1) : List Char) =
    'v' :: (natRepr CY ++ '.' :: natRepr (if PY = CY then PR + 1 else 1)) from rfl]
  rw [alphaDecorate_canonical]
  rw [apply_ite String.mk]
  rw [show String.mk (alphaList Y R (I + 1)) = mkAlphaStr Y R (I + 1) from rfl]
  rw [show String.mk (alphaList CY (if PY = CY then PR + 1 else 1) 1) =
    mkAlphaStr CY (if PY = CY then PR + 1 else 1) 1 from rfl]

/-- C5: for a canonical previous alpha v<Y>.<R>-alpha.<I> and a canonical
prior production version v<PY>.<PR>[.<PP>], stage alpha without hotfix bumps
the iteration by one exactly when the working year.revision equals the
alpha year.revision, and otherwise starts -alpha.1 under the working
year.revision; hence two alpha releases in the same year with no
intervening production release each bump the iteration by exactly one. -/
theorem versioning_alpha_iteration_spec :
    ∀ (CY PY PR Y R I : Nat) (pp : Option Nat) (reference : String) (lsv : Option String),
      (versioning "alpha" reference false (some (mkAlphaStr Y R I))
          (some (mkProdStr PY PR pp)) lsv (natStr CY) =
        Except.ok (if Y = CY ∧ R = (if PY = CY then PR + 1 else 1)
          then mkAlphaStr Y R (I + 1)
          else mkAlphaStr CY (if PY = CY then PR + 1 else 1) 1)) ∧
      versioning "alpha" reference false (some (mkAlphaStr CY (PR + 1) I))
          (some (mkProdStr CY PR pp)) lsv (natStr CY) =
        Except.ok (mkAlphaStr CY (PR + 1) (I + 1)) ∧
      versioning "alpha" reference false (some (mkAlphaStr CY (PR + 1) (I + 1)))
          (some (mkProdStr CY PR pp)) lsv (natStr CY) =
        Except.ok (mkAlphaStr CY (PR + 1) (I + 2)) := by
  intro CY PY PR Y R I pp reference lsv
  refine ⟨versioning_alpha_canonical CY PY PR Y R I pp reference lsv, ?_, ?_⟩
  · rw [versioning_alpha_canonical CY CY PR CY (PR + 1) I pp reference lsv]
    rw [if_pos rfl, if_pos ⟨rfl, rfl⟩]
  · rw [versioning_alpha_canonical CY CY PR CY (PR + 1) (I + 1) pp reference lsv]
    rw [if_pos rfl, if_pos ⟨rfl, rfl⟩]

/-- C10 (amended): versioning with stage alpha and hotfix=false is total -
it returns a version string and never throws, whatever the previous and
production version inputs are; a missing previous version yields a fresh
v<workingYear>.<workingRevision>-alpha.1; a malformed previous version also
never raises a version-format error, but (per the counterexample) its
positional decomposition may produce a result other than a fresh .1
iteration. -/
theorem versioning_alpha_total :
    (∀ (reference : String)
       (previousVersion lastProductionVersion latestStageVersion : Option String)
       (currentYear : String),
      ∃ s, versioning "alpha" reference false previousVersion lastProductionVersion
        latestStageVersion currentYear = Except.ok s) ∧
    (∀ (CY : Nat) (reference : String) (lsv : Option String),
      versioning "alpha" reference false none none lsv (natStr CY) =
        Except.ok (mkAlphaStr CY 1 1)) ∧
    (∀ (CY PY PR : Nat) (pp : Option Nat) (reference : String) (lsv : Option String),
      versioning "alpha" reference false none (some (mkProdStr PY PR pp)) lsv (natStr CY) =
        Except.ok (mkAlphaStr CY (if PY = CY then PR + 1 else 1) 1)) := by
  refine ⟨?_, ?_, ?_⟩
  · intro reference prev prod lsv cy
    rw [versioning_alpha_eq]
    exact ⟨_, rfl⟩
  · intro CY reference lsv
    rw [versioning_alpha_eq]
    rw [show (none : Option String).map String.toList = none from rfl]
    rw [show (natStr CY).toList = natRepr CY from rfl]
    rw [workingVersion_none]
    rw [show ('v' :: natRepr CY ++ '.' :: '1' :: [] : List Char) =
      'v' :: (natRepr CY ++ '.' :: natRepr 1) from rfl]
    rw [alphaDecorate_none]
    rfl
  · intro CY PY PR pp reference lsv
    rw [versioning_alpha_eq]
    rw [show (none : Option String).map String.toList = none from rfl]
    rw [show (some (mkProdStr PY PR pp)).map String.toList = some (prodList PY PR pp) from rfl]
    rw [show (natStr CY).toList = natRepr CY from rfl]
    rw [workingVersion_canonical]
    rw [show ('v' :: natRepr CY ++ '.' :: natRepr (if PY = CY then PR + 1 else 1) : List Char) =
      'v' :: (natRepr CY ++ '.' :: natRepr (if PY = CY then PR + 1 else 1)) from rfl]
    rw [alphaDecorate_none]
    rfl

/-! ### Claim C4: the beta hotfix path -/

/-- The optional .fix segment of a beta tag. -/
def fixSeg : Option (List Char) → List Char
  | none => []
  | some f => '.' :: f

/-- The -beta.<iter>[.<fix>] tail of a beta tag. -/
def betaTail (Is : List Char) (fx : Option (List Char)) : List Char :=
  '-' :: 'b' :: 'e' :: 't' :: 'a' :: '.' :: (Is ++ fixSeg fx)

/-- Revision, optional patch and a tail, as they follow v<year>. in a beta tag. -/
def betaBody (Rs : List Char) (pt : Option (List Char)) (t : List Char) : List Char :=
  match pt with
  | none => Rs ++ t
  | some Ps => Rs ++ '.' :: (Ps ++ t)

/-- The char-list form of the full beta tag
v20<d1><d2>.<Rs>[.<pt>]-beta.<Is>[.<fx>]. -/
def betaListC (d1 d2 : Char) (Rs : List Char) (pt : Option (List Char))
    (Is : List Char) (fx : Option (List Char)) : List Char :=
  'v' :: '2' :: '0' :: d1 :: d2 :: '.' :: betaBody Rs pt (betaTail Is fx)

theorem jsStrToNum_digits (F : List Char) (hF : ∀ c ∈ F, c.isDigit = true) (hne : F ≠ []) :
    jsStrToNum F = some (digitsVal F) := by
  rw [jsStrToNum, if_neg hne, if_pos (List.all_eq_true.mpr hF)]

theorem parseBetaTail_spec (Is : List Char) (fx : Option (List Char))
    (hI : ∀ c ∈ Is, c.isDigit = true) (hIlo : 1 ≤ Is.length) (hIhi : Is.length ≤ 4)
    (hfx : ∀ F ∈ fx, (∀ c ∈ F, c.isDigit = true) ∧ 1 ≤ F.length ∧ F.length ≤ 4) :
    parseBetaTail (betaTail Is fx) = some (Is, fx) := by
  rw [betaTail, parseBetaTail]
  have htd : takeDigits (Is ++ fixSeg fx) = (Is, fixSeg fx) := by
    apply takeDigits_spec Is (fixSeg fx) hI
    cases fx with
    | none => exact Or.inl rfl
    | some F => exact Or.inr ⟨'.', F, rfl, by decide⟩
  rw [htd]
  simp only
  rw [if_pos ⟨hIlo, hIhi⟩]
  cases fx with
  | none => rfl
  | some F =>
    obtain ⟨hFd, hFlo, hFhi⟩ := hfx F rfl
    rw [fixSeg]
    simp only
    have hne : F ≠ [] := by
      intro h
      rw [h] at hFlo
      simp at hFlo
    have htd2 : takeDigits F = (F, []) := by
      have := takeDigits_spec F [] hFd (Or.inl rfl)
      simpa using this
    rw [htd2]
    rw [if_pos ⟨⟨hFlo, hFhi⟩, rfl⟩]

theorem parseBetaHotfix_spec (d1 d2 : Char) (Rs Is : List Char)
    (pt fx : Option (List Char))
    (hd1 : d1.isDigit = true) (hd2 : d2.isDigit = true)
    (hR : ∀ c ∈ Rs, c.isDigit = true) (hRlo : 1 ≤ Rs.length) (hRhi : Rs.length ≤ 3)
    (hpt : ∀ P ∈ pt, (∀ c ∈ P, c.isDigit = true) ∧ 1 ≤ P.length ∧ P.length ≤ 3)
    (hI : ∀ c ∈ Is, c.isDigit = true) (hIlo : 1 ≤ Is.length) (hIhi : Is.length ≤ 4)
    (hfx : ∀ F ∈ fx, (∀ c ∈ F, c.isDigit = true) ∧ 1 ≤ F.length ∧ F.length ≤ 4) :
    parseBetaHotfix (betaListC d1 d2 Rs pt Is fx) =
      some (['2', '0', d1, d2], Rs, pt, Is, fx) := by
  rw [betaListC, parseBetaHotfix]
  rw [if_pos ⟨hd1, hd2⟩]
  cases pt with
  | none =>
    rw [betaBody]
    have htd : takeDigits (Rs ++ betaTail Is fx) = (Rs, betaTail Is fx) := by
      apply takeDigits_spec Rs (betaTail Is fx) hR
      exact Or.inr ⟨'-', _, rfl, by decide⟩
    rw [htd]
    simp only
    rw [if_pos ⟨hRlo, hRhi⟩]
    rw [show (betaTail Is fx) = '-' :: 'b' :: 'e' :: 't' :: 'a' :: '.' :: (Is ++ fixSeg fx)
      from rfl]
    rw [show parseBetaTail ('-' :: 'b' :: 'e' :: 't' :: 'a' :: '.' :: (Is ++ fixSeg fx)) =
      some (Is, fx) from parseBetaTail_spec Is fx hI hIlo hIhi hfx]
    rfl
  | some Ps =>
    obtain ⟨hPd, hPlo, hPhi⟩ := hpt Ps rfl
    rw [betaBody]
    have htd : takeDigits (Rs ++ '.' :: (Ps ++ betaTail Is fx)) =
        (Rs, '.' :: (Ps ++ betaTail Is fx)) := by
      apply takeDigits_spec Rs _ hR
      exact Or.inr ⟨'.', _, rfl, by decide⟩
    rw [htd]
    simp only
    rw [if_pos ⟨hRlo, hRhi⟩]
    have htd2 : takeDigits (Ps ++ betaTail Is fx) = (Ps, betaTail Is fx) := by
      apply takeDigits_spec Ps _ hPd
      exact Or.inr ⟨'-', _, rfl, by decide⟩
    rw [htd2]
    simp only
    rw [if_pos ⟨hPlo, hPhi⟩]
    rw [show (betaTail Is fx) = '-' :: 'b' :: 'e' :: 't' :: 'a' :: '.' :: (Is ++ fixSeg fx)
      from rfl]
    rw [show parseBetaTail ('-' :: 'b' :: 'e' :: 't' :: 'a' :: '.' :: (Is ++ fixSeg fx)) =
      some (Is, fx) from parseBetaTail_spec Is fx hI hIlo hIhi hfx]

/-- The output of the beta hotfix path: fix bumped by one (0 when absent),
all other captured components verbatim. -/
def betaOutList (d1 d2 : Char) (Rs : List Char) (pt : Option (List Char))
    (Is : List Char) (fx : Option (List Char)) : List Char :=
  'v' :: ['2', '0', d1, d2] ++ '.' :: Rs ++ (match pt with
    | some p => '.' :: p
    | none => []) ++ ('-' :: 'b' :: 'e' :: 't' :: 'a' :: '.' :: []) ++ Is ++
    '.' :: natRepr (digitsVal (fx.getD ['0']) + 1)

theorem betaHotfix_canonical (d1 d2 : Char) (Rs Is : List Char)
    (pt fx : Option (List Char))
    (hd1 : d1.isDigit = true) (hd2 : d2.isDigit = true)
    (hR : ∀ c ∈ Rs, c.isDigit = true) (hRlo : 1 ≤ Rs.length) (hRhi : Rs.length ≤ 3)
    (hpt : ∀ P ∈ pt, (∀ c ∈ P, c.isDigit = true) ∧ 1 ≤ P.length ∧ P.length ≤ 3)
    (hI : ∀ c ∈ Is, c.isDigit = true) (hIlo : 1 ≤ Is.length) (hIhi : Is.length ≤ 4)
    (hfx : ∀ F ∈ fx, (∀ c ∈ F, c.isDigit = true) ∧ 1 ≤ F.length ∧ F.length ≤ 4) :
    betaHotfix (some (betaListC d1 d2 Rs pt Is fx)) =
      Except.ok (betaOutList d1 d2 Rs pt Is fx) := by
  have hparse := parseBetaHotfix_spec d1 d2 Rs Is pt fx hd1 hd2 hR hRlo hRhi hpt
    hI hIlo hIhi hfx
  have hne : betaListC d1 d2 Rs pt Is fx ≠ [] := by
    rw [betaListC]
    simp
  rw [betaHotfix]
  rw [if_neg (by
    rintro (h | h)
    · exact hne h
    · rw [hparse] at h
      cases h)]
  rw [hparse]
  have hfix : jsNumToStr (jsAdd1 (jsStrToNum (fx.getD ['0']))) =
      natRepr (digitsVal (fx.getD ['0']) + 1) := by
    cases fx with
    | none => rfl
    | some F =>
      obtain ⟨hFd, hFlo, _⟩ := hfx F rfl
      have hFne : F ≠ [] := by
        intro h
        rw [h] at hFlo
        simp at hFlo
      rw [show (some F).getD ['0'] = F from rfl]
      rw [jsStrToNum_digits F hFd hFne]
      rfl
  cases pt with
  | none =>
    simp only [betaOutList]
    simp only [Option.getD_some] at hfix
    simp [hfix]
  | some Ps =>
    simp only [betaOutList]
    simp only [Option.getD_some] at hfix
    simp [hfix]

/-- C4: with hotfix=true and stage beta, a latest beta version matching
v<year>.<rev>[.<patch>]-beta.<iter>[.<fix>] yields the same version with the
trailing fix bumped by one (an absent fix counting as 0) and year, revision,
patch and iteration verbatim. -/
theorem versioning_beta_hotfix_increments_fix :
    ∀ (d1 d2 : Char) (Rs Is : List Char) (pt fx : Option (List Char))
      (reference : String) (prev prod : Option String) (cy : String),
      d1.isDigit = true → d2.isDigit = true →
      (∀ c ∈ Rs, c.isDigit = true) → 1 ≤ Rs.length → Rs.length ≤ 3 →
      (∀ P ∈ pt, (∀ c ∈ P, c.isDigit = true) ∧ 1 ≤ P.length ∧ P.length ≤ 3) →
      (∀ c ∈ Is, c.isDigit = true) → 1 ≤ Is.length → Is.length ≤ 4 →
      (∀ F ∈ fx, (∀ c ∈ F, c.isDigit = true) ∧ 1 ≤ F.length ∧ F.length ≤ 4) →
      versioning "beta" reference true prev prod
          (some (String.mk (betaListC d1 d2 Rs pt Is fx))) cy =
        Except.ok (String.mk (betaOutList d1 d2 Rs pt Is fx)) := by
  intro d1 d2 Rs Is pt fx reference prev prod cy hd1 hd2 hR hRlo hRhi hpt hI hIlo hIhi hfx
  rw [versioning]
  rw [if_pos ⟨rfl, rfl⟩]
  rw [show (some (String.mk (betaListC d1 d2 Rs pt Is fx))).map String.toList =
    some (betaListC d1 d2 Rs pt Is fx) from rfl]
  rw [betaHotfix_canonical d1 d2 Rs Is pt fx hd1 hd2 hR hRlo hRhi hpt hI hIlo hIhi hfx]
  rfl

/-- C4 witness: latest beta v2025.3-beta.2 yields v2025.3-beta.2.1 through
the theorem. -/
theorem versioning_beta_hotfix_increments_fix_witness :
    versioning "beta" "" true none none (some "v2025.3-beta.2") "2025" =
      Except.ok "v2025.3-beta.2.1" := by
  have h := versioning_beta_hotfix_increments_fix '2' '5' ['3'] ['2'] none none
    "" none none "2025" (by decide) (by decide) (by decide) (by decide) (by decide)
    (by intro P hP; cases hP) (by decide) (by decide) (by decide)
    (by intro F hF; cases hF)
  have h1 : String.mk (betaListC '2' '5' ['3'] none ['2'] none) = "v2025.3-beta.2" := by
    decide
  have h2 : String.mk (betaOutList '2' '5' ['3'] none ['2'] none) = "v2025.3-beta.2.1" := by
    decide
  rw [h1, h2] at h
  exact h
